import Mathlib

/-!
Shallow embedding of src/Buffer/Buffer.hpp (tnt::Buffer), a segmented IO
buffer made of fixed-size blocks.  A block's data area holds `DS` bytes
(`Block::DATA_SIZE`); blocks carry monotonically assigned ids; the buffer
keeps a begin offset into the head block, an end offset into the tail
block, a next-id counter `m_blockId`, and a registry of live iterators.
Bytes are modelled as `Nat`, pointers into a block as (block id, offset)
pairs; distinct blocks are distinct allocator chunks, so two positions
are the same pointer exactly when block id and offset agree.
-/

namespace TntBuffer

/-- One block: its sequence id and its data area (`char data[DATA_SIZE]`). -/
structure Block where
  id : Nat
  data : List Nat
deriving DecidableEq, Repr

/-- An iterator position: the block's id and the offset inside the data area
(`m_block`, `m_position - m_block->begin()`). -/
structure Iter where
  id : Nat
  off : Nat
deriving DecidableEq, Repr

/-- The buffer state: block list (head first), `m_blockId`, offsets of
`m_begin` in the head block and `m_end` in the tail block, and the iterator
registry `m_iterators` (list head first). -/
structure Buffer where
  blocks : List Block
  blockId : Nat
  mbegin : Nat
  mend : Nat
  iters : List Iter
deriving DecidableEq, Repr

/-- memcpy of `src` into a data area at offset `off`. -/
def writeAt (data : List Nat) (off : Nat) (src : List Nat) : List Nat :=
  data.take off ++ src ++ data.drop (off + src.length)

/-- Apply `f` to the data area of the last block of a list. -/
def updateLastData (f : List Nat → List Nat) : List Block → List Block
  | [] => []
  | [b] => [⟨b.id, f b.data⟩]
  | b :: rest => b :: updateLastData f rest

/-- A newly allocated block: fresh id, uninitialized data (modelled as 0s). -/
def freshBlock (DS id : Nat) : Block := ⟨id, List.replicate DS 0⟩

/-- Look a block up by its id (the model's analogue of a block pointer). -/
def findBlock (blocks : List Block) (id : Nat) : Option Block :=
  blocks.find? (fun blk => blk.id == id)

/-- Data area of the block with a given id (empty if there is none). -/
def findData (blocks : List Block) (id : Nat) : List Nat :=
  ((findBlock blocks id).map Block.data).getD []

/-- Replace the data of the block with the given id by `f` of it. -/
def updBlock (blocks : List Block) (id : Nat) (f : List Nat → List Nat) :
    List Block :=
  blocks.map (fun blk => if blk.id = id then ⟨blk.id, f blk.data⟩ else blk)

def Buffer.headId (b : Buffer) : Nat := ((b.blocks.head?).map Block.id).getD 0
def Buffer.lastId (b : Buffer) : Nat := ((b.blocks.getLast?).map Block.id).getD 0

/-- begin(): iterator at the head block, offset `m_begin`. -/
def Buffer.beginIter (b : Buffer) : Iter := ⟨b.headId, b.mbegin⟩

/-- end(): iterator at the tail block, offset `m_end`. -/
def Buffer.endIter (b : Buffer) : Iter := ⟨b.lastId, b.mend⟩

/-- The constructor: one fresh block with id 0, `m_blockId = 1`,
`m_begin = m_end = b->data`. -/
def Buffer.fresh (DS : Nat) : Buffer := ⟨[freshBlock DS 0], 1, 0, 0, []⟩

/-- Live bytes of a block list: the head block from `bg`, the tail block up
to `en`, whole data areas in between. -/
def blocksBytes : List Block → Nat → Nat → List Nat
  | [], _, _ => []
  | blk :: rest, bg, en =>
    match rest with
    | [] => (blk.data.take en).drop bg
    | _ :: _ => blk.data.drop bg ++ blocksBytes rest 0 en

/-- The buffer's logical byte sequence (the bytes between `m_begin` and
`m_end`). -/
def Buffer.contents (b : Buffer) : List Nat :=
  blocksBytes b.blocks b.mbegin b.mend

/-- Structural invariants of a buffer: at least one block, block data areas
of size `DS`, block ids a contiguous range ending right below `m_blockId`,
`m_begin` inside the head block's data area, `m_end` strictly inside the
tail block's data area, begin not past end inside a single block. -/
def WF (DS : Nat) (b : Buffer) : Prop :=
  0 < DS ∧
  b.blocks ≠ [] ∧
  b.blocks.length ≤ b.blockId ∧
  b.blocks.map Block.id = List.range' (b.blockId - b.blocks.length) b.blocks.length ∧
  (∀ blk ∈ b.blocks, blk.data.length = DS) ∧
  b.mbegin ≤ DS ∧ b.mend < DS ∧
  (b.blocks.length = 1 → b.mbegin ≤ b.mend)

instance (DS : Nat) (b : Buffer) : Decidable (WF DS b) := by
  unfold WF; infer_instance

/-! ### addBack(wrap::Data)

The slow path builds a transient `Blocks` list; an allocation failure runs
its destructor, which frees every transient block and decrements
`m_blockId` once per block.  We model the allocator by a `budget` of
allocations it will grant before throwing. -/

/-- The do-while loop of `addBack(wrap::Data)` from its second iteration on
(the first iteration, which writes into the main tail block and allocates
the first transient block, is peeled into `addBackData`).  `s` is the
remaining source, `blockId` the current `m_blockId`, `trans` the transient
list (the copy target is its last block at offset 0).  Returns
`.ok (trans, blockId, mend)` on success and `.error blockId` after the
rollback performed by `Blocks::~Blocks`.  The guard `0 < DS` is a totality
guard: `DATA_SIZE` is a positive compile-time constant in every
instantiation. -/
def addLoop (DS : Nat) (s : List Nat) (blockId budget : Nat)
    (trans : List Block) : Except Nat (List Block × Nat × Nat) :=
  if h : 0 < DS ∧ DS ≤ s.length then
    -- while (size >= left_in_block): memcpy a full block, allocate the next
    let trans' := updateLastData (fun d => writeAt d 0 (s.take DS)) trans
    match budget with
    | 0 => .error (blockId - trans'.length)
    | bu + 1 =>
      addLoop DS (s.drop DS) (blockId + 1) bu (trans' ++ [freshBlock DS blockId])
  else
    .ok (updateLastData (fun d => writeAt d 0 s) trans, blockId, s.length)
termination_by s.length
decreasing_by
  simp only [List.length_drop]
  exact Nat.sub_lt (Nat.lt_of_lt_of_le h.1 h.2) h.1

/-- addBack(wrap::Data).  `.ok` is a normal return, `.error` means the
allocator threw; either constructor carries the buffer state afterwards. -/
def addBackData (DS : Nat) (b : Buffer) (s : List Nat) (budget : Nat) :
    Except Buffer Buffer :=
  let left := DS - b.mend
  if s.length < left then
    -- fast path: left_in_block > size
    .ok { b with
          blocks := updateLastData (fun d => writeAt d b.mend s) b.blocks,
          mend := b.mend + s.length }
  else
    -- first do-while iteration: memcpy left_in_block bytes past m_end,
    -- then allocate the first transient block
    let blocks1 := updateLastData (fun d => writeAt d b.mend (s.take left)) b.blocks
    match budget with
    | 0 => .error { b with blocks := blocks1 }
    | bu + 1 =>
      match addLoop DS (s.drop left) (b.blockId + 1) bu [freshBlock DS b.blockId] with
      | .error id' => .error { b with blocks := blocks1, blockId := id' }
      | .ok (tl, id', mend') =>
        .ok { blocks := blocks1 ++ tl, blockId := id', mbegin := b.mbegin,
              mend := mend', iters := b.iters }

/-! ### addBack(wrap::Advance)

Same control flow without the copies; used by `insert`.  Modelled with an
always-succeeding allocator (the claims exercising it do not involve
allocation failure). -/

/-- The do-while loop of `addBack(wrap::Advance)` from its second iteration
on; the first allocation is peeled into `addBackAdvance`. -/
def advanceLoop (DS : Nat) (size blockId : Nat) (trans : List Block) :
    List Block × Nat × Nat :=
  if h : 0 < DS ∧ DS ≤ size then
    advanceLoop DS (size - DS) (blockId + 1) (trans ++ [freshBlock DS blockId])
  else (trans, blockId, size)
termination_by size
decreasing_by exact Nat.sub_lt (Nat.lt_of_lt_of_le h.1 h.2) h.1

/-- addBack(wrap::Advance): reserve `size` uninitialized bytes at the tail. -/
def addBackAdvance (DS : Nat) (b : Buffer) (size : Nat) : Buffer :=
  let left := DS - b.mend
  if size < left then { b with mend := b.mend + size }
  else
    let r := advanceLoop DS (size - left) (b.blockId + 1) [freshBlock DS b.blockId]
    { b with blocks := b.blocks ++ r.1, blockId := r.2.1, mend := r.2.2 }

/-! ### dropBack / dropFront -/

/-- The loop of `dropBack`: while more is dropped than the tail block holds,
`delBlockAndPrev` frees the tail block and decrements `m_blockId`, and
`m_end` moves to the previous block's end.  Returns the new block list,
`m_blockId` and `m_end` offset.  The `[]` case is unreachable: the source
asserts the block list never empties. -/
def dropBackLoop (DS : Nat) (blocks : List Block) (blockId mend size : Nat) :
    List Block × Nat × Nat :=
  if size > mend then
    match blocks with
    | [] => ([], blockId, mend)
    | x :: xs => dropBackLoop DS (x :: xs).dropLast (blockId - 1) DS (size - mend)
  else (blocks, blockId, mend - size)
termination_by blocks.length
decreasing_by simp [List.length_dropLast]

/-- dropBack(size). -/
def Buffer.dropBack (DS : Nat) (b : Buffer) (size : Nat) : Buffer :=
  let r := dropBackLoop DS b.blocks b.blockId b.mend size
  { b with blocks := r.1, blockId := r.2.1, mend := r.2.2 }

/-- The loop of `dropFront`: frees head blocks via `delBlockAndNext` (which
does not touch `m_blockId`).  Returns the new block list and `m_begin`
offset. -/
def dropFrontLoop (DS : Nat) (blocks : List Block) (mbegin size : Nat) :
    List Block × Nat :=
  if size > DS - mbegin then
    match blocks with
    | [] => ([], mbegin)
    | _ :: rest => dropFrontLoop DS rest 0 (size - (DS - mbegin))
  else (blocks, mbegin + size)
termination_by blocks.length
decreasing_by simp

/-- dropFront(size). -/
def Buffer.dropFront (DS : Nat) (b : Buffer) (size : Nat) : Buffer :=
  let r := dropFrontLoop DS b.blocks b.mbegin size
  { b with blocks := r.1, mbegin := r.2 }

/-! ### Iterator motion and subtraction -/

/-- iterator::moveForward: cross block boundaries while the step reaches
the end of the current block.  The `0 < DS - i.off` guard makes the
function total; the source asserts `m_position < m_block->end()`, under
which the guard is equivalent to the loop condition. -/
def moveForward (DS : Nat) (i : Iter) (step : Nat) : Iter :=
  if h : 0 < DS - i.off ∧ DS - i.off ≤ step then
    moveForward DS ⟨i.id + 1, 0⟩ (step - (DS - i.off))
  else ⟨i.id, i.off + step⟩
termination_by step
decreasing_by exact Nat.sub_lt (Nat.lt_of_lt_of_le h.1 h.2) h.1

/-- iterator::moveBackward: walk to previous blocks while the step exceeds
the offset.  The `i.id = 0` case is unreachable (the source would walk
before the head block). -/
def moveBackward (DS : Nat) (i : Iter) (step : Nat) : Iter :=
  if i.off < step then
    if _h : i.id = 0 then ⟨0, 0⟩
    else moveBackward DS ⟨i.id - 1, DS⟩ (step - i.off)
  else ⟨i.id, i.off - step⟩
termination_by i.id
decreasing_by omega

/-- operator++: moveForward(1). -/
def iterInc (DS : Nat) (i : Iter) : Iter := moveForward DS i 1

/-- size_t is 64 bits wide. -/
def W64 : Nat := 2 ^ 64

/-- iterator::operator-: size_t arithmetic modulo 2^64, exactly as the
source computes it:  `(j.id - i.id) * DATA_SIZE - (i.pos - i.begin) +
(j.pos - j.begin)`. -/
def iterSub (DS : Nat) (j i : Iter) : Nat :=
  let r1 := (j.id % W64 + (W64 - i.id % W64)) % W64 * DS % W64
  let r2 := (r1 + (W64 - i.off % W64)) % W64
  (r2 + j.off % W64) % W64

/-! ### getIOV -/

/-- The loop of `getIOV(start, end, vecs, max_size)`: one descriptor per
block until the end block or the cap is reached.  A descriptor is
`(block id, offset, length)`. -/
def getIOVLoop (DS : Nat) (blkId lastId pos endPos : Nat) :
    Nat → List (Nat × Nat × Nat)
  | 0 => []
  | m + 1 =>
    if blkId = lastId then [(blkId, pos, endPos - pos)]
    else (blkId, pos, DS - pos) :: getIOVLoop DS (blkId + 1) lastId 0 endPos m

/-- getIOV(start, end, vecs, max_size); returns the descriptor list (its
length is the returned count). -/
def Buffer.getIOV (DS : Nat) (b : Buffer) (start stop : Iter) (max : Nat) :
    List (Nat × Nat × Nat) :=
  getIOVLoop DS start.id stop.id start.off stop.off max

/-- Bytes covered by a descriptor list. -/
def iovJoin (blocks : List Block) (descs : List (Nat × Nat × Nat)) : List Nat :=
  (descs.map (fun d => ((findData blocks d.1).drop d.2.1).take d.2.2)).flatten

/-! ### get / set -/

/-- get(itr, buf, size): per-block copy out, starting at (id, off).  The
`copy = 0` guard is unreachable for live iterators (`pos < block->end()`). -/
def getBytes (DS : Nat) (blocks : List Block) (id off size : Nat) : List Nat :=
  if _h0 : size = 0 then []
  else
    match findBlock blocks id with
    | none => []
    | some blk =>
      let copy := min size (DS - off)
      if h : 0 < copy then
        (blk.data.drop off).take copy ++ getBytes DS blocks (id + 1) 0 (size - copy)
      else []
termination_by size
decreasing_by omega

/-- set(itr, buf, size): per-block copy in. -/
def setBytes (DS : Nat) (blocks : List Block) (id off : Nat) (src : List Nat) :
    List Block :=
  if _h0 : src = [] then blocks
  else
    let copy := min src.length (DS - off)
    if h : 0 < copy then
      setBytes DS (updBlock blocks id (fun d => writeAt d off (src.take copy)))
        (id + 1) 0 (src.drop copy)
    else blocks
termination_by src.length
decreasing_by simp only [List.length_drop]; omega

/-- Buffer::set as a state transformer. -/
def Buffer.set (DS : Nat) (b : Buffer) (i : Iter) (src : List Nat) : Buffer :=
  { b with blocks := setBytes DS b.blocks i.id i.off src }

/-- Buffer::get: returns the bytes read and the (unmodified) buffer — the
source member writes only into the caller's array. -/
def Buffer.get (DS : Nat) (b : Buffer) (i : Iter) (size : Nat) :
    List Nat × Buffer :=
  (getBytes DS b.blocks i.id i.off size, b)

/-! ### flush -/

/-- flush(): distance from begin() to the first registered iterator (to
end() when the registry is empty); dropFront of that distance when it is
positive. -/
def Buffer.flush (DS : Nat) (b : Buffer) : Buffer :=
  let distance :=
    match b.iters with
    | [] => iterSub DS b.endIter b.beginIter
    | i :: _ => iterSub DS i b.beginIter
  if distance > 0 then Buffer.dropFront DS b distance else b

/-! ### insert / release

The copy loops of `insert` and `release` move data between blocks in
chunks of `min(left_in_src_block, left_in_dst_block)` bytes.  Block
pointers become block ids (`prev`/`next` become `-1`/`+1`, valid under the
contiguous-ids invariant); `memmove(dst, src, n)` becomes reading `n`
bytes from the source block and writing them into the destination block
(the read happens before the write, which is what memmove guarantees for
overlapping windows).  The `id = 0`/`lastId ≤ _` guards cut off walks past
the ends of the block list, which the source's preconditions exclude. -/

/-- The for(;;) copy loop of `insert`, walking from the tail of the shifted
region backward to the insertion point.  The state mirrors the source's
locals: current source/destination block ids, offsets `src`/`dst`,
`left_in_src_block`, `left_in_dst_block` and `copy_chunk_sz`. -/
def insertLoop (DS : Nat) (itr : Iter) (blocks : List Block)
    (srcId dstId src dst lsrc ldst chunk : Nat) : List Block :=
  let bytes := ((findData blocks srcId).drop src).take chunk
  let blocks' := updBlock blocks dstId (fun d => writeAt d dst bytes)
  if ldst > lsrc then
    let ldst' := ldst - chunk
    if srcId = itr.id then blocks'
    else if srcId = 0 then blocks'
    else
      -- src_block = prev; src = end - left_in_dst; re-evaluate src_block_begin
      let srcId' := srcId - 1
      let sbb := if srcId' = itr.id then itr.off else 0
      insertLoop DS itr blocks' srcId' dstId (DS - ldst') 0 (DS - sbb) ldst' ldst'
  else
    let lsrc' := lsrc - chunk
    if dstId = 0 then blocks'
    else
      -- dst_block = prev; dst = end - left_in_src; src = begin
      insertLoop DS itr blocks' srcId (dstId - 1) 0 (DS - lsrc') lsrc' DS lsrc'
termination_by srcId + dstId
decreasing_by all_goals omega

/-- Walk of the iterator registry from its tail, moving every iterator
forward by `size` until one positionally equal to `itr` is met (the
source's `for (tmp = &m_iterators.last(); *tmp != itr; tmp = &tmp->prev())`;
`operator!=` compares positions).  Takes and yields the registry reversed.
The `[]` case is unreachable: `itr` itself is registered. -/
def bumpRev (DS size : Nat) (itr : Iter) : List Iter → List Iter
  | [] => []
  | x :: rest =>
    if x = itr then x :: rest
    else moveForward DS x size :: bumpRev DS size itr rest

/-- Registry adjustment after `insert`. -/
def bumpIters (DS : Nat) (iters : List Iter) (itr : Iter) (size : Nat) :
    List Iter :=
  (bumpRev DS size itr iters.reverse).reverse

/-- insert(itr, size): remember the pre-insert tail, advance by `size`,
copy the shifted region backward in per-block chunks, then move the
iterators registered after `itr` forward. -/
def Buffer.insert (DS : Nat) (b : Buffer) (itr : Iter) (size : Nat) : Buffer :=
  let srcId := b.lastId
  let srcEnd := b.mend
  let b1 := addBackAdvance DS b size
  let dstId := b1.lastId
  let sbb := if srcId = itr.id then itr.off else 0
  let ldst := b1.mend
  let lsrc := srcEnd - sbb
  let src0 := if ldst > lsrc then sbb else srcEnd - ldst
  let dst0 := if ldst > lsrc then b1.mend - lsrc else 0
  let chunk := min lsrc ldst
  let blocks' := insertLoop DS itr b1.blocks srcId dstId src0 dst0 lsrc ldst chunk
  { b1 with blocks := blocks', iters := bumpIters DS b1.iters itr size }

/-- The for(;;) copy loop of `release`, walking from the hole toward the
tail. -/
def releaseLoop (DS lastId : Nat) (blocks : List Block)
    (srcId dstId src dst lsrc ldst chunk : Nat) : List Block :=
  let bytes := ((findData blocks srcId).drop src).take chunk
  let blocks' := updBlock blocks dstId (fun d => writeAt d dst bytes)
  if ldst > lsrc then
    let ldst' := ldst - chunk
    if lastId ≤ srcId then blocks'
    else
      -- src_block = next; src = begin; dst += chunk
      releaseLoop DS lastId blocks' (srcId + 1) dstId 0 (dst + chunk) DS ldst' ldst'
  else
    let lsrc' := lsrc - chunk
    if lastId ≤ dstId then blocks'
    else
      -- dst_block = next; dst = begin; src += chunk
      releaseLoop DS lastId blocks' srcId (dstId + 1) (src + chunk) 0 lsrc' DS lsrc'
termination_by (lastId - srcId) + (lastId - dstId)
decreasing_by all_goals omega

/-- Registry walk of `release`: like `bumpRev` but moving backward. -/
def rewindRev (DS size : Nat) (itr : Iter) : List Iter → List Iter
  | [] => []
  | x :: rest =>
    if x = itr then x :: rest
    else moveBackward DS x size :: rewindRev DS size itr rest

/-- Registry adjustment after `release`. -/
def rewindIters (DS : Nat) (iters : List Iter) (itr : Iter) (size : Nat) :
    List Iter :=
  (rewindRev DS size itr iters.reverse).reverse

/-- release(itr, size): locate `itr + size` (the source's while loop is the
`moveForward` code), copy forward in per-block chunks, rewind the
iterators registered after `itr`, then dropBack(size). -/
def Buffer.release (DS : Nat) (b : Buffer) (itr : Iter) (size : Nat) : Buffer :=
  let s := moveForward DS itr size
  let dst := itr.off
  let ldst := DS - dst
  let lsrc := DS - s.off
  let chunk := min lsrc ldst
  let blocks' := releaseLoop DS b.lastId b.blocks s.id itr.id s.off dst lsrc ldst chunk
  let b1 := { b with blocks := blocks', iters := rewindIters DS b.iters itr size }
  Buffer.dropBack DS b1 size

/-! ## General lemmas -/

theorem updateLastData_length (f : List Nat → List Nat) :
    ∀ l : List Block, (updateLastData f l).length = l.length := by
  intro l
  induction l with
  | nil => rfl
  | cons x xs ih =>
    cases xs with
    | nil => rfl
    | cons y ys => simpa [updateLastData] using ih

theorem updateLastData_map_id (f : List Nat → List Nat) :
    ∀ l : List Block, (updateLastData f l).map Block.id = l.map Block.id := by
  intro l
  induction l with
  | nil => rfl
  | cons x xs ih =>
    cases xs with
    | nil => rfl
    | cons y ys => simpa [updateLastData] using ih

theorem map_id_head? (l l' : List Block)
    (h : l.map Block.id = l'.map Block.id) :
    l.head?.map Block.id = l'.head?.map Block.id := by
  rw [← List.head?_map, ← List.head?_map, h]

theorem map_id_getLast? (l l' : List Block)
    (h : l.map Block.id = l'.map Block.id) :
    l.getLast?.map Block.id = l'.getLast?.map Block.id := by
  rw [← List.getLast?_map, ← List.getLast?_map, h]

theorem writeAt_length (d : List Nat) (off : Nat) (src : List Nat)
    (h : off + src.length ≤ d.length) :
    (writeAt d off src).length = d.length := by
  simp only [writeAt, List.length_append, List.length_take, List.length_drop]
  omega

/-! ## C1: strong exception safety of addBack -/

theorem addLoop_error (DS : Nat) (s : List Nat) (blockId budget : Nat)
    (trans : List Block) :
    ∀ id' : Nat, addLoop DS s blockId budget trans = .error id' →
      id' = blockId - trans.length := by
  induction s, blockId, budget, trans using addLoop.induct DS with
  | case1 s blockId trans hg =>
    intro id' h
    rw [addLoop] at h
    simp only [dif_pos hg] at h
    have := (Except.error.injEq _ _).mp h
    rw [← this, updateLastData_length]
  | case2 s blockId trans hg trans' bu ih =>
    intro id' h
    rw [addLoop] at h
    simp only [dif_pos hg] at h
    have := ih id' h
    simp only [List.length_append, List.length_cons, List.length_nil] at this
    rw [this, updateLastData_length]
    omega
  | case3 s blockId budget trans hg =>
    intro id' h
    rw [addLoop] at h
    simp [dif_neg hg] at h

theorem updateLastData_headId (f : List Nat → List Nat) (l : List Block) :
    (updateLastData f l).head?.map Block.id = l.head?.map Block.id :=
  map_id_head? _ _ (updateLastData_map_id f l)

theorem updateLastData_lastId (f : List Nat → List Nat) (l : List Block) :
    (updateLastData f l).getLast?.map Block.id = l.getLast?.map Block.id :=
  map_id_getLast? _ _ (updateLastData_map_id f l)

theorem headId_mk (bl : List Block) (bi mb me : Nat) (it : List Iter) :
    Buffer.headId ⟨bl, bi, mb, me, it⟩ = (bl.head?.map Block.id).getD 0 := rfl

/-- C1: if `addBack` throws because an allocation fails part-way through a
multi-block append, the buffer is observably unchanged: `begin()` and
`end()` equal their pre-call values, the block count is unchanged, and
`m_blockId` is rolled back to its pre-call value (it had been incremented
once per transient block and `Blocks::~Blocks` decrements it once per
transient block). -/
theorem c1_addBack_strong_exception_safety (DS : Nat) (b : Buffer)
    (s : List Nat) (budget : Nat) (b' : Buffer)
    (h : addBackData DS b s budget = .error b') :
    b'.beginIter = b.beginIter ∧ b'.endIter = b.endIter ∧
    b'.blocks.length = b.blocks.length ∧ b'.blockId = b.blockId ∧
    b'.mbegin = b.mbegin ∧ b'.mend = b.mend ∧ b'.iters = b.iters := by
  have base :
      ∀ bl1 : List Block,
        bl1.map Block.id = b.blocks.map Block.id →
        bl1.length = b.blocks.length →
        ∀ hb' : b' = { b with blocks := bl1, blockId := b.blockId },
        b'.beginIter = b.beginIter ∧ b'.endIter = b.endIter ∧
        b'.blocks.length = b.blocks.length ∧ b'.blockId = b.blockId ∧
        b'.mbegin = b.mbegin ∧ b'.mend = b.mend ∧ b'.iters = b.iters := by
    intro bl1 hid hlen hb'
    subst hb'
    refine ⟨?_, ?_, hlen, rfl, rfl, rfl, rfl⟩
    · simp only [Buffer.beginIter, Buffer.headId]
      rw [map_id_head? _ _ hid]
    · simp only [Buffer.endIter, Buffer.lastId]
      rw [map_id_getLast? _ _ hid]
  unfold addBackData at h
  by_cases hf : s.length < DS - b.mend
  · simp only [if_pos hf] at h
    exact Except.noConfusion h
  · simp only [if_neg hf] at h
    split at h
    · -- budget = 0: the very first allocation throws, transient list empty
      simp only [Except.error.injEq] at h
      exact base _ (updateLastData_map_id _ _) (updateLastData_length _ _) h.symm
    · -- budget = bu + 1: split on the loop's outcome
      split at h
      · -- the loop threw; addLoop_error gives the rolled-back counter
        rename_i id' hl
        simp only [Except.error.injEq] at h
        have hid := addLoop_error DS _ _ _ _ id' hl
        simp only [List.length_cons, List.length_nil, Nat.add_sub_cancel] at hid
        rw [hid] at h
        exact base _ (updateLastData_map_id _ _) (updateLastData_length _ _) h.symm
      · exact Except.noConfusion h

/-- Witness for C1: a concrete append on a fresh 3-byte-block buffer under
an allocator that fails at once; the rolled-back state is observably the
original. -/
theorem c1_witness :
    addBackData 3 (Buffer.fresh 3) [1, 2, 3] 0 =
      .error ⟨[⟨0, [1, 2, 3]⟩], 1, 0, 0, []⟩ ∧
    (⟨[⟨0, [1, 2, 3]⟩], 1, 0, 0, []⟩ : Buffer).beginIter =
        (Buffer.fresh 3).beginIter ∧
      (⟨[⟨0, [1, 2, 3]⟩], 1, 0, 0, []⟩ : Buffer).endIter =
        (Buffer.fresh 3).endIter ∧
      (⟨[⟨0, [1, 2, 3]⟩], 1, 0, 0, []⟩ : Buffer).blocks.length =
        (Buffer.fresh 3).blocks.length ∧
      (⟨[⟨0, [1, 2, 3]⟩], 1, 0, 0, []⟩ : Buffer).blockId =
        (Buffer.fresh 3).blockId ∧
      (⟨[⟨0, [1, 2, 3]⟩], 1, 0, 0, []⟩ : Buffer).mbegin =
        (Buffer.fresh 3).mbegin ∧
      (⟨[⟨0, [1, 2, 3]⟩], 1, 0, 0, []⟩ : Buffer).mend =
        (Buffer.fresh 3).mend ∧
      (⟨[⟨0, [1, 2, 3]⟩], 1, 0, 0, []⟩ : Buffer).iters =
        (Buffer.fresh 3).iters :=
  ⟨by simp [addBackData, addLoop, Buffer.fresh, freshBlock, updateLastData, writeAt],
   c1_addBack_strong_exception_safety 3 (Buffer.fresh 3) [1, 2, 3] 0 _
     (by simp [addBackData, addLoop, Buffer.fresh, freshBlock, updateLastData, writeAt])⟩

/-! ## C2: dropBack and m_blockId

The claim says `m_blockId` is unchanged by `dropBack` even when whole
blocks are freed.  The code's `delBlockAndPrev` decrements `m_blockId`
once per freed block, so the claim fails; what holds instead is that the
counter is decremented by exactly the number of freed blocks, which keeps
`m_blockId = tail.id + 1` (ids stay contiguous and consistent with the
counter, as `debugSelfCheck` demands). -/

/-- A well-formed two-block buffer holding 5 bytes; no live iterators. -/
def c2Buf : Buffer :=
  ⟨[⟨0, [10, 11, 12, 13]⟩, ⟨1, [20, 21, 22, 23]⟩], 2, 0, 1, []⟩

/-- Counterexample to C2: dropping 2 of the 5 bytes present (no live
iterator in the dropped range) frees the tail block and changes
`m_blockId` from 2 to 1. -/
theorem c2_counterexample :
    WF 4 c2Buf ∧ 1 ≤ 2 ∧
      c2Buf.mbegin + 2 ≤ c2Buf.mend + 4 * (c2Buf.blocks.length - 1) ∧
      ¬(Buffer.dropBack 4 c2Buf 2).blockId = c2Buf.blockId := by
  refine ⟨by decide, by decide, by decide, ?_⟩
  simp [c2Buf, Buffer.dropBack, dropBackLoop]

theorem range'_take (m : Nat) :
    ∀ (s n : Nat), m ≤ n → (List.range' s n).take m = List.range' s m := by
  induction m with
  | zero => intro s n _; rfl
  | succ k ih =>
    intro s n hm
    cases n with
    | zero => omega
    | succ n' =>
      have h1 : List.range' s (n' + 1) = s :: List.range' (s + 1) n' := rfl
      have h2 : List.range' s (k + 1) = s :: List.range' (s + 1) k := rfl
      rw [h1, h2, List.take_succ_cons, ih (s + 1) n' (by omega)]

theorem dropBackLoop_spec (DS : Nat) (hDS : 0 < DS) :
    ∀ (blocks : List Block) (blockId mend size : Nat),
      blocks ≠ [] → 1 ≤ size → mend ≤ DS →
      size ≤ mend + DS * (blocks.length - 1) →
      ∃ m me, 1 ≤ m ∧ m ≤ blocks.length ∧ me < DS ∧
        dropBackLoop DS blocks blockId mend size =
          (blocks.take m, blockId - (blocks.length - m), me) := by
  intro blocks blockId mend size
  induction blocks, blockId, mend, size using dropBackLoop.induct DS with
  | case1 blockId mend size hgt =>
    intro hne _ _ _
    exact absurd rfl hne
  | case2 blockId mend size hgt x xs ih =>
    intro _ h1 hme hsz
    have hlen2 : 2 ≤ (x :: xs).length := by
      rcases xs with _ | ⟨y, ys⟩
      · simp at hsz; omega
      · simp
    have hdl : (x :: xs).dropLast.length = (x :: xs).length - 1 :=
      List.length_dropLast _
    have hd : (x :: xs).dropLast ≠ [] := by
      rcases xs with _ | ⟨y, ys⟩
      · simp at hlen2
      · simp
    have hmul : DS * ((x :: xs).length - 1) =
        DS + DS * ((x :: xs).length - 2) := by
      have h2 : (x :: xs).length - 1 = ((x :: xs).length - 2) + 1 := by omega
      rw [h2, Nat.mul_succ, Nat.add_comm]
    obtain ⟨m, me, hm1, hmle, hmeDS, heq⟩ :=
      ih hd (by omega) le_rfl (by
        rw [hdl]
        have h22 : (x :: xs).length - 1 - 1 = (x :: xs).length - 2 := by omega
        rw [h22]
        omega)
    rw [dropBackLoop, if_pos hgt, heq]
    refine ⟨m, me, hm1, by omega, hmeDS, ?_⟩
    have htake : (x :: xs).dropLast.take m = (x :: xs).take m := by
      rw [List.dropLast_eq_take, List.take_take]
      congr 1
      omega
    rw [htake]
    have harith : blockId - 1 - ((x :: xs).dropLast.length - m) =
        blockId - ((x :: xs).length - m) := by omega
    rw [harith]
  | case3 blocks blockId mend size hle =>
    intro hne h1 hme _
    refine ⟨blocks.length, mend - size, ?_, le_rfl, by omega, ?_⟩
    · cases blocks with
      | nil => exact absurd rfl hne
      | cons x xs => simp
    · rw [dropBackLoop.eq_def, if_neg hle, List.take_length, Nat.sub_self,
        Nat.sub_zero]

/-- C2 amended: after `dropBack(k)` (with `k` bytes present and at least
one byte dropped), `m_blockId` is decremented by exactly the number of
whole blocks freed — not left unchanged — and it still equals the
surviving tail block's id plus one, so future appends continue the id
sequence contiguously. -/
theorem c2_dropBack_blockId_amended (DS : Nat) (b : Buffer) (size : Nat)
    (hwf : WF DS b) (h1 : 1 ≤ size)
    (hsz : b.mbegin + size ≤ b.mend + DS * (b.blocks.length - 1)) :
    (Buffer.dropBack DS b size).blockId +
        (b.blocks.length - (Buffer.dropBack DS b size).blocks.length) =
      b.blockId ∧
    (Buffer.dropBack DS b size).blocks ≠ [] ∧
    (Buffer.dropBack DS b size).blockId =
      (Buffer.dropBack DS b size).lastId + 1 := by
  obtain ⟨hDS, hne, hcnt, hids, _, _, hmend, _⟩ := hwf
  obtain ⟨m, me, hm1, hmle, _, heq⟩ :=
    dropBackLoop_spec DS hDS b.blocks b.blockId b.mend size hne h1
      (le_of_lt hmend) (by omega)
  have hblocks : (Buffer.dropBack DS b size).blocks = b.blocks.take m := by
    simp [Buffer.dropBack, heq]
  have hbid : (Buffer.dropBack DS b size).blockId =
      b.blockId - (b.blocks.length - m) := by
    simp [Buffer.dropBack, heq]
  have hlen : (Buffer.dropBack DS b size).blocks.length = m := by
    rw [hblocks, List.length_take]
    omega
  refine ⟨by rw [hbid, hlen]; omega, ?_, ?_⟩
  · intro hc
    rw [hc] at hlen
    simp at hlen
    omega
  · -- the surviving tail id is base + m - 1 where base = blockId - length
    have hmap : (b.blocks.take m).map Block.id =
        List.range' (b.blockId - b.blocks.length) m := by
      rw [List.map_take, hids, range'_take m _ _ hmle]
    have hlast : ((b.blocks.take m).map Block.id).getLast? =
        some (b.blockId - b.blocks.length + (m - 1)) := by
      rw [hmap]
      cases m with
      | zero => omega
      | succ k =>
        rw [List.range'_1_concat, List.getLast?_concat]
        simp
    simp only [Buffer.lastId]
    rw [hbid, hblocks, ← List.getLast?_map, hlast]
    simp only [Option.getD_some]
    omega

/-- Witness for the amended C2 at a concrete input. -/
theorem c2_amended_witness :
    (WF 4 c2Buf ∧ 1 ≤ 2 ∧
      c2Buf.mbegin + 2 ≤ c2Buf.mend + 4 * (c2Buf.blocks.length - 1)) ∧
    ((Buffer.dropBack 4 c2Buf 2).blockId +
        (c2Buf.blocks.length - (Buffer.dropBack 4 c2Buf 2).blocks.length) =
      c2Buf.blockId ∧
    (Buffer.dropBack 4 c2Buf 2).blocks ≠ [] ∧
    (Buffer.dropBack 4 c2Buf 2).blockId =
      (Buffer.dropBack 4 c2Buf 2).lastId + 1) :=
  ⟨⟨by decide, by decide, by decide⟩,
   c2_dropBack_blockId_amended 4 c2Buf 2 (by decide) (by decide) (by decide)⟩

/-! ## C10: getIOV on an empty range -/

/-- C10: for an empty range `start == end`, `getIOV` with `max >= 1`
returns 1 (not 0), having written a single descriptor at the shared
position with length 0. -/
theorem c10_getIOV_empty_range (DS : Nat) (b : Buffer) (i : Iter)
    (max : Nat) (h : 1 ≤ max) :
    Buffer.getIOV DS b i i max = [(i.id, i.off, 0)] ∧
    (Buffer.getIOV DS b i i max).length = 1 := by
  cases max with
  | zero => omega
  | succ m =>
    have : Buffer.getIOV DS b i i (m + 1) = [(i.id, i.off, 0)] := by
      simp [Buffer.getIOV, getIOVLoop]
    exact ⟨this, by rw [this]; rfl⟩

/-- Witness for C10 at a concrete input. -/
theorem c10_witness :
    1 ≤ 1 ∧
    (Buffer.getIOV 4 (Buffer.fresh 4) ⟨0, 0⟩ ⟨0, 0⟩ 1 = [(0, 0, 0)] ∧
      (Buffer.getIOV 4 (Buffer.fresh 4) ⟨0, 0⟩ ⟨0, 0⟩ 1).length = 1) :=
  ⟨le_rfl, c10_getIOV_empty_range 4 (Buffer.fresh 4) ⟨0, 0⟩ 1 le_rfl⟩

/-! ## C3: iterator difference equals the number of ++ steps -/

theorem W64_pos : 0 < W64 := by norm_num [W64]

/-- Normal form of a forward-moved iterator position. -/
def advIter (DS : Nat) (i : Iter) (d : Nat) : Iter :=
  ⟨i.id + (i.off + d) / DS, (i.off + d) % DS⟩

theorem iterInc_eq (DS : Nat) (id off : Nat) (hDS : 0 < DS) (hoff : off < DS) :
    iterInc DS ⟨id, off⟩ =
      if off + 1 = DS then ⟨id + 1, 0⟩ else ⟨id, off + 1⟩ := by
  unfold iterInc
  rw [moveForward]
  by_cases hc : off + 1 = DS
  · have hg : 0 < DS - off ∧ DS - off ≤ 1 := by omega
    rw [dif_pos hg, if_pos hc, moveForward]
    have hg2 : ¬(0 < DS - (0 : Nat) ∧ DS - 0 ≤ 1 - (DS - off)) := by omega
    rw [dif_neg hg2]
    have : 1 - (DS - off) = 0 := by omega
    simp [this]
  · have hg : ¬(0 < DS - off ∧ DS - off ≤ 1) := by omega
    rw [dif_neg hg, if_neg hc]

theorem iterInc_iterate (DS : Nat) (hDS : 0 < DS) :
    ∀ (d : Nat) (i : Iter), i.off < DS →
      (iterInc DS)^[d] i = advIter DS i d := by
  intro d
  induction d with
  | zero =>
    intro i hoff
    simp only [Function.iterate_zero, id_eq, advIter, Nat.add_zero]
    rw [Nat.div_eq_of_lt hoff, Nat.mod_eq_of_lt hoff]
    rfl
  | succ k ih =>
    intro i hoff
    rw [Function.iterate_succ_apply', ih i hoff]
    have hr : (i.off + k) % DS < DS := Nat.mod_lt _ hDS
    have hqr : DS * ((i.off + k) / DS) + (i.off + k) % DS = i.off + k :=
      Nat.div_add_mod _ _
    rw [advIter, iterInc_eq DS _ _ hDS hr]
    generalize hq : (i.off + k) / DS = q at hqr ⊢
    generalize hm : (i.off + k) % DS = r at hqr hr ⊢
    have hms : DS * (q + 1) = DS * q + DS := Nat.mul_succ DS q
    by_cases hc : r + 1 = DS
    · rw [if_pos hc]
      have hk1 : i.off + (k + 1) = DS * (q + 1) := by rw [hms]; omega
      simp only [advIter]
      rw [hk1, Nat.mul_div_cancel_left _ hDS, Nat.mul_mod_right,
        Nat.add_assoc]
    · rw [if_neg hc]
      have hk1 : i.off + (k + 1) = DS * q + (r + 1) := by omega
      simp only [advIter]
      rw [hk1, Nat.mul_add_div hDS, Nat.mul_add_mod,
        Nat.div_eq_of_lt (by omega), Nat.mod_eq_of_lt (by omega)]
      simp

theorem iterSub_eq (DS : Nat) (i j : Iter) (hDS : 0 < DS)
    (hio : i.off < DS) (hjo : j.off < DS) (hij : i.id ≤ j.id)
    (hoo : i.id = j.id → i.off ≤ j.off) (hjW : j.id < W64)
    (hfit : (j.id - i.id) * DS + j.off < W64) :
    iterSub DS j i = (j.id - i.id) * DS + j.off - i.off := by
  have hW : W64 = 18446744073709551616 := by norm_num [W64]
  have hiW : i.id < W64 := lt_of_le_of_lt hij hjW
  have hdW : j.id - i.id < W64 := by omega
  simp only [iterSub]
  rw [hW] at hjW hfit hiW hdW ⊢
  rw [Nat.mod_eq_of_lt hiW, Nat.mod_eq_of_lt hjW]
  have h1 : j.id + (18446744073709551616 - i.id) =
      18446744073709551616 + (j.id - i.id) := by omega
  rw [h1, Nat.add_mod_left, Nat.mod_eq_of_lt hdW]
  rcases Nat.lt_or_ge i.id j.id with hlt | hge
  · -- different blocks: the id difference is positive
    have hpos : 0 < j.id - i.id := by omega
    have hDSk : DS ≤ (j.id - i.id) * DS := Nat.le_mul_of_pos_left DS hpos
    have hkW : (j.id - i.id) * DS < 18446744073709551616 := by omega
    rw [Nat.mod_eq_of_lt hkW]
    have hioW : i.off < 18446744073709551616 := by omega
    have hjoW : j.off < 18446744073709551616 := by omega
    rw [Nat.mod_eq_of_lt hioW, Nat.mod_eq_of_lt hjoW]
    have h3 : (j.id - i.id) * DS + (18446744073709551616 - i.off) =
        18446744073709551616 + ((j.id - i.id) * DS - i.off) := by omega
    have hx : (j.id - i.id) * DS - i.off < 18446744073709551616 := by omega
    have hxy : (j.id - i.id) * DS - i.off + j.off <
        18446744073709551616 := by omega
    rw [h3, Nat.add_mod_left, Nat.mod_eq_of_lt hx, Nat.mod_eq_of_lt hxy]
    omega
  · -- same block
    have h0 : j.id - i.id = 0 := by omega
    have hoij : i.off ≤ j.off := hoo (by omega)
    rw [h0] at hfit ⊢
    simp only [Nat.zero_mul, Nat.zero_add] at hfit
    have hioW : i.off < 18446744073709551616 := by omega
    rw [Nat.mod_eq_of_lt hioW, Nat.mod_eq_of_lt hfit]
    simp only [Nat.zero_mul, Nat.zero_mod, Nat.zero_add]
    rcases Nat.eq_zero_or_pos i.off with hz | hp
    · rw [hz]
      simp only [Nat.sub_zero, Nat.mod_self, Nat.zero_add]
      rw [Nat.mod_eq_of_lt hfit]
    · have hin : (18446744073709551616 : Nat) - i.off <
          18446744073709551616 := by omega
      rw [Nat.mod_eq_of_lt hin]
      have h4 : 18446744073709551616 - i.off + j.off =
          18446744073709551616 + (j.off - i.off) := by omega
      have hout : j.off - i.off < 18446744073709551616 := by omega
      rw [h4, Nat.add_mod_left, Nat.mod_eq_of_lt hout]

/-- C3: for live iterators `i <= j`, `j - i` equals
`(j.block.id - i.block.id) * DATA_SIZE + (j.offset - j.block.begin) -
(i.offset - i.block.begin)` and that value is the number of `operator++`
steps taking `i` to `j`.  The bounds say the iterators are live positions
(offset inside the data area) and that ids and the byte distance fit in a
size_t, which holds for any real buffer. -/
theorem c3_iterator_difference (DS : Nat) (i j : Iter) (hDS : 0 < DS)
    (hio : i.off < DS) (hjo : j.off < DS) (hij : i.id ≤ j.id)
    (hoo : i.id = j.id → i.off ≤ j.off) (hjW : j.id < W64)
    (hfit : (j.id - i.id) * DS + j.off < W64) :
    iterSub DS j i = (j.id - i.id) * DS + j.off - i.off ∧
    (iterInc DS)^[iterSub DS j i] i = j := by
  have hsub := iterSub_eq DS i j hDS hio hjo hij hoo hjW hfit
  refine ⟨hsub, ?_⟩
  rw [hsub, iterInc_iterate DS hDS _ i hio]
  have hle : i.off ≤ (j.id - i.id) * DS + j.off := by
    rcases Nat.eq_zero_or_pos (j.id - i.id) with hd0 | hd1
    · have := hoo (by omega)
      omega
    · have : DS ≤ (j.id - i.id) * DS := Nat.le_mul_of_pos_left DS hd1
      omega
  have hsum : i.off + ((j.id - i.id) * DS + j.off - i.off) =
      DS * (j.id - i.id) + j.off := by
    have hcomm : DS * (j.id - i.id) = (j.id - i.id) * DS :=
      Nat.mul_comm DS (j.id - i.id)
    rw [hcomm]
    omega
  rw [advIter, hsum, Nat.mul_add_div hDS, Nat.mul_add_mod,
    Nat.div_eq_of_lt hjo, Nat.mod_eq_of_lt hjo]
  have : i.id + (j.id - i.id + 0) = j.id := by omega
  rw [this]

/-- Witness for C3 at a concrete input: DS = 3, i = (0,2), j = (2,1);
the distance is 5 and five ++ steps take i to j. -/
theorem c3_witness :
    iterSub 3 ⟨2, 1⟩ ⟨0, 2⟩ = (2 - 0) * 3 + 1 - 2 ∧
    (iterInc 3)^[iterSub 3 ⟨2, 1⟩ ⟨0, 2⟩] ⟨0, 2⟩ = ⟨2, 1⟩ :=
  c3_iterator_difference 3 ⟨0, 2⟩ ⟨2, 1⟩ (by decide) (by decide) (by decide)
    (by decide) (by decide) (by norm_num [W64]) (by norm_num [W64])

/-! ## C9: the tail block always keeps at least one free data byte -/

theorem addLoop_ok_mend (DS : Nat) (hDS : 0 < DS) (s : List Nat)
    (blockId budget : Nat) (trans : List Block) :
    ∀ tl id' mend', addLoop DS s blockId budget trans = .ok (tl, id', mend') →
      mend' < DS := by
  induction s, blockId, budget, trans using addLoop.induct DS with
  | case1 s blockId trans hg =>
    intro tl id' mend' h
    rw [addLoop] at h
    simp only [dif_pos hg] at h
    exact Except.noConfusion h
  | case2 s blockId trans hg trans' bu ih =>
    intro tl id' mend' h
    rw [addLoop] at h
    simp only [dif_pos hg] at h
    exact ih tl id' mend' h
  | case3 s blockId budget trans hg =>
    intro tl id' mend' h
    rw [addLoop] at h
    simp only [dif_neg hg, Except.ok.injEq, Prod.mk.injEq] at h
    have : s.length < DS := by
      rcases Nat.lt_or_ge s.length DS with hc | hc
      · exact hc
      · exact absurd ⟨hDS, hc⟩ hg
    omega

theorem addLoop_ok_ids (DS : Nat) (s : List Nat)
    (blockId budget : Nat) (trans : List Block) :
    ∀ tl id' mend', addLoop DS s blockId budget trans = .ok (tl, id', mend') →
      tl.map Block.id =
        trans.map Block.id ++ List.range' blockId (id' - blockId) ∧
      blockId ≤ id' := by
  induction s, blockId, budget, trans using addLoop.induct DS with
  | case1 s blockId trans hg =>
    intro tl id' mend' h
    rw [addLoop] at h
    simp only [dif_pos hg] at h
    exact Except.noConfusion h
  | case2 s blockId trans hg trans' bu ih =>
    intro tl id' mend' h
    rw [addLoop] at h
    simp only [dif_pos hg] at h
    obtain ⟨hmap, hle⟩ := ih tl id' mend' h
    constructor
    · rw [hmap, List.map_append, updateLastData_map_id]
      have h1 : id' - blockId = (id' - (blockId + 1)) + 1 := by omega
      rw [h1]
      have h2 : List.range' blockId ((id' - (blockId + 1)) + 1) =
          blockId :: List.range' (blockId + 1) (id' - (blockId + 1)) := rfl
      rw [h2]
      simp [freshBlock]
    · omega
  | case3 s blockId budget trans hg =>
    intro tl id' mend' h
    rw [addLoop] at h
    simp only [dif_neg hg, Except.ok.injEq, Prod.mk.injEq] at h
    obtain ⟨h1, h2, _⟩ := h
    refine ⟨?_, by omega⟩
    rw [← h1, ← h2, updateLastData_map_id, Nat.sub_self]
    simp

/-- C9: the implicit invariant that `m_end` stays strictly inside the tail
block's data area.  It holds after construction, is preserved by `addBack`
and by `dropBack`, and an `addBack` whose size is at least the free space
left in the tail block (including an exact fit) takes the allocation path:
the block count grows, the tail block afterwards is one of the newly
allocated blocks (its id is at least the pre-call `m_blockId`), and
`m_end` sits strictly inside it. -/
theorem c9_tail_never_full (DS : Nat) (b : Buffer) (s : List Nat)
    (budget size : Nat) (b1 : Buffer) (hwf : WF DS b)
    (hok : addBackData DS b s budget = .ok b1)
    (h1 : 1 ≤ size)
    (hsz : b.mbegin + size ≤ b.mend + DS * (b.blocks.length - 1))
    (hfit : DS - b.mend ≤ s.length) :
    (Buffer.fresh DS).mend < DS ∧
    b1.mend < DS ∧
    (Buffer.dropBack DS b size).mend < DS ∧
    b.blocks.length < b1.blocks.length ∧
    b.blockId ≤ b1.lastId := by
  obtain ⟨hDS, hne, hcnt, hids, hdata, hmb, hmend, hone⟩ := hwf
  have hslow : ¬s.length < DS - b.mend := by omega
  unfold addBackData at hok
  rw [if_neg hslow] at hok
  split at hok
  · exact Except.noConfusion hok
  · split at hok
    · exact Except.noConfusion hok
    · rename_i tl id' mend' hl
      simp only [Except.ok.injEq] at hok
      obtain ⟨hmap, hble⟩ := addLoop_ok_ids DS _ _ _ _ _ _ _ hl
      have hml : mend' < DS := addLoop_ok_mend DS hDS _ _ _ _ _ _ _ hl
      have htl_map : tl.map Block.id =
          List.range' b.blockId (id' - b.blockId) := by
        rw [hmap]
        simp only [List.map_cons, List.map_nil, freshBlock]
        have h1' : id' - b.blockId = (id' - (b.blockId + 1)) + 1 := by omega
        rw [h1']
        rfl
      have htl_len : tl.length = id' - b.blockId := by
        have h2 := congrArg List.length htl_map
        rw [List.length_map, List.length_range'] at h2
        exact h2
      have htl_ne : tl ≠ [] := by
        intro hc
        rw [hc] at htl_len
        simp at htl_len
        omega
      refine ⟨by simp [Buffer.fresh]; omega, ?_, ?_, ?_, ?_⟩
      · rw [← hok]
        exact hml
      · obtain ⟨m, me, _, _, hmeDS, heq⟩ :=
          dropBackLoop_spec DS hDS b.blocks b.blockId b.mend size hne h1
            (le_of_lt hmend) (by omega)
        simp [Buffer.dropBack, heq, hmeDS]
      · rw [← hok]
        simp only [List.length_append, updateLastData_length]
        have : 1 ≤ tl.length := by
          cases tl with
          | nil => exact absurd rfl htl_ne
          | cons x xs => simp
        omega
      · rw [← hok]
        simp only [Buffer.lastId]
        rw [List.getLast?_append_of_ne_nil _ htl_ne]
        have hlast : (tl.map Block.id).getLast? =
            some (b.blockId + (id' - b.blockId - 1)) := by
          rw [htl_map]
          have h1' : id' - b.blockId = (id' - b.blockId - 1) + 1 := by omega
          rw [h1', List.range'_1_concat, List.getLast?_concat]
          congr 1
        rw [← List.getLast?_map, hlast]
        simp

/-- A one-byte buffer used by the C9 witness. -/
def c9Buf : Buffer := ⟨[⟨0, [7, 0, 0]⟩], 1, 0, 1, []⟩

/-- Witness for C9 at a concrete input: DS = 3, an exact-fit 2-byte append
on a 1-byte buffer, and a 1-byte dropBack. -/
theorem c9_witness :
    (WF 3 c9Buf ∧
      addBackData 3 c9Buf [8, 9] 1 =
        .ok ⟨[⟨0, [7, 8, 9]⟩, ⟨1, [0, 0, 0]⟩], 2, 0, 0, []⟩ ∧
      1 ≤ 1 ∧
      c9Buf.mbegin + 1 ≤ c9Buf.mend + 3 * (c9Buf.blocks.length - 1) ∧
      3 - c9Buf.mend ≤ ([8, 9] : List Nat).length) ∧
    ((Buffer.fresh 3).mend < 3 ∧
     (⟨[⟨0, [7, 8, 9]⟩, ⟨1, [0, 0, 0]⟩], 2, 0, 0, []⟩ : Buffer).mend < 3 ∧
     (Buffer.dropBack 3 c9Buf 1).mend < 3 ∧
     c9Buf.blocks.length <
       (⟨[⟨0, [7, 8, 9]⟩, ⟨1, [0, 0, 0]⟩], 2, 0, 0, []⟩ : Buffer).blocks.length ∧
     c9Buf.blockId ≤
       (⟨[⟨0, [7, 8, 9]⟩, ⟨1, [0, 0, 0]⟩], 2, 0, 0, []⟩ : Buffer).lastId) :=
  ⟨⟨by decide,
    by simp [addBackData, addLoop, c9Buf, freshBlock, updateLastData, writeAt],
    by decide, by decide, by decide⟩,
   c9_tail_never_full 3 c9Buf [8, 9] 1 1 _ (by decide)
     (by simp [addBackData, addLoop, c9Buf, freshBlock, updateLastData, writeAt])
     (by decide) (by decide) (by decide)⟩

/-! ## C8: get and set are frame-preserving -/

theorem updBlock_map_id (blocks : List Block) (id : Nat)
    (f : List Nat → List Nat) :
    (updBlock blocks id f).map Block.id = blocks.map Block.id := by
  induction blocks with
  | nil => rfl
  | cons x xs ih =>
    simp only [updBlock, List.map_cons] at ih ⊢
    by_cases hx : x.id = id <;> simp [hx, ih]

theorem updBlock_length (blocks : List Block) (id : Nat)
    (f : List Nat → List Nat) :
    (updBlock blocks id f).length = blocks.length := by
  simp [updBlock]

theorem updBlock_data_length (DS : Nat) (blocks : List Block) (id : Nat)
    (f : List Nat → List Nat) (hf : ∀ d, d.length = DS → (f d).length = DS)
    (h : ∀ blk ∈ blocks, blk.data.length = DS) :
    ∀ blk ∈ updBlock blocks id f, blk.data.length = DS := by
  intro blk hblk
  simp only [updBlock, List.mem_map] at hblk
  obtain ⟨a, ha, hab⟩ := hblk
  by_cases hx : a.id = id
  · rw [if_pos hx] at hab
    rw [← hab]
    exact hf a.data (h a ha)
  · rw [if_neg hx] at hab
    rw [← hab]
    exact h a ha

theorem setBytes_map_id (DS : Nat) (blocks : List Block) (id off : Nat)
    (src : List Nat) :
    (setBytes DS blocks id off src).map Block.id = blocks.map Block.id := by
  induction blocks, id, off, src using setBytes.induct DS with
  | case1 blocks id off =>
    simp [setBytes]
  | case2 blocks id off src h0 copy hc ih =>
    rw [setBytes]
    simp only [dif_neg h0, dif_pos hc]
    rw [ih, updBlock_map_id]
  | case3 blocks id off src h0 copy hn =>
    rw [setBytes]
    simp only [dif_neg h0, dif_neg hn]

theorem setBytes_length (DS : Nat) (blocks : List Block) (id off : Nat)
    (src : List Nat) :
    (setBytes DS blocks id off src).length = blocks.length := by
  have h := congrArg List.length (setBytes_map_id DS blocks id off src)
  simpa using h

theorem setBytes_data_length (DS : Nat) :
    ∀ (blocks : List Block) (id off : Nat) (src : List Nat),
      off ≤ DS → (∀ blk ∈ blocks, blk.data.length = DS) →
      ∀ blk ∈ setBytes DS blocks id off src, blk.data.length = DS := by
  intro blocks id off src
  induction blocks, id, off, src using setBytes.induct DS with
  | case1 blocks id off =>
    intro _ h
    rw [setBytes, dif_pos rfl]
    exact h
  | case2 blocks id off src h0 copy hc ih =>
    intro hoff h
    rw [setBytes]
    simp only [dif_neg h0, dif_pos hc]
    refine ih (by omega) ?_
    refine updBlock_data_length DS blocks id _ ?_ h
    intro d hd
    rw [writeAt_length]
    · exact hd
    · rw [hd, List.length_take]
      omega
  | case3 blocks id off src h0 copy hn =>
    intro _ h
    rw [setBytes]
    simp only [dif_neg h0, dif_neg hn]
    exact h

theorem blocksBytes_length_congr :
    ∀ (l1 l2 : List Block) (bg en : Nat),
      l1.map (fun blk => blk.data.length) =
        l2.map (fun blk => blk.data.length) →
      (blocksBytes l1 bg en).length = (blocksBytes l2 bg en).length := by
  intro l1
  induction l1 with
  | nil =>
    intro l2 bg en h
    cases l2 with
    | nil => rfl
    | cons y ys => simp at h
  | cons x xs ih =>
    intro l2 bg en h
    cases l2 with
    | nil => simp at h
    | cons y ys =>
      simp only [List.map_cons, List.cons.injEq] at h
      obtain ⟨hxy, hrest⟩ := h
      cases xs with
      | nil =>
        cases ys with
        | nil =>
          have hx1 : blocksBytes [x] bg en = (x.data.take en).drop bg := rfl
          have hy1 : blocksBytes [y] bg en = (y.data.take en).drop bg := rfl
          rw [hx1, hy1]
          simp only [List.length_drop, List.length_take, hxy]
        | cons z zs => simp at hrest
      | cons a as =>
        cases ys with
        | nil => simp at hrest
        | cons c cs =>
          have hx2 : blocksBytes (x :: a :: as) bg en =
              x.data.drop bg ++ blocksBytes (a :: as) 0 en := rfl
          have hy2 : blocksBytes (y :: c :: cs) bg en =
              y.data.drop bg ++ blocksBytes (c :: cs) 0 en := rfl
          rw [hx2, hy2]
          simp only [List.length_append, List.length_drop, hxy]
          rw [ih (c :: cs) 0 en hrest]

theorem map_data_length_replicate (DS : Nat) :
    ∀ l : List Block, (∀ blk ∈ l, blk.data.length = DS) →
      l.map (fun blk => blk.data.length) = List.replicate l.length DS := by
  intro l
  induction l with
  | nil => intro _; rfl
  | cons x xs ih =>
    intro h
    simp only [List.map_cons, List.length_cons, List.replicate_succ]
    rw [h x (by simp), ih (fun blk hb => h blk (by simp [hb]))]

/-- C8: `set(itr, buf, size)` leaves the registry, the id counter, the
begin/end offsets, the block ids, the block count, and the buffer's byte
count unchanged (no allocation or deallocation happens), and `get` does
not modify the buffer at all. -/
theorem c8_get_set_frame (DS : Nat) (b : Buffer) (i : Iter) (src : List Nat)
    (n : Nat) (hwf : WF DS b) (hoff : i.off ≤ DS) :
    (Buffer.set DS b i src).iters = b.iters ∧
    (Buffer.set DS b i src).blockId = b.blockId ∧
    (Buffer.set DS b i src).mbegin = b.mbegin ∧
    (Buffer.set DS b i src).mend = b.mend ∧
    (Buffer.set DS b i src).blocks.map Block.id = b.blocks.map Block.id ∧
    (Buffer.set DS b i src).blocks.length = b.blocks.length ∧
    (Buffer.set DS b i src).contents.length = b.contents.length ∧
    (Buffer.get DS b i n).2 = b := by
  obtain ⟨hDS, hne, hcnt, hids, hdata, hmb, hmend, hone⟩ := hwf
  refine ⟨rfl, rfl, rfl, rfl, setBytes_map_id DS b.blocks i.id i.off src,
    setBytes_length DS b.blocks i.id i.off src, ?_, rfl⟩
  apply blocksBytes_length_congr
  simp only [Buffer.set]
  have hset := setBytes_data_length DS b.blocks i.id i.off src hoff hdata
  rw [map_data_length_replicate DS _ hset, map_data_length_replicate DS _ hdata,
    setBytes_length]

/-- A two-block buffer with one registered iterator for the C8 witness. -/
def c8Buf : Buffer :=
  ⟨[⟨0, [1, 2, 3]⟩, ⟨1, [4, 5, 6]⟩], 2, 0, 2, [⟨0, 1⟩]⟩

/-- Witness for C8 at a concrete input: a 2-byte `set` spanning a block
boundary. -/
theorem c8_witness :
    (WF 3 c8Buf ∧ (⟨0, 2⟩ : Iter).off ≤ 3) ∧
    ((Buffer.set 3 c8Buf ⟨0, 2⟩ [9, 9]).iters = c8Buf.iters ∧
     (Buffer.set 3 c8Buf ⟨0, 2⟩ [9, 9]).blockId = c8Buf.blockId ∧
     (Buffer.set 3 c8Buf ⟨0, 2⟩ [9, 9]).mbegin = c8Buf.mbegin ∧
     (Buffer.set 3 c8Buf ⟨0, 2⟩ [9, 9]).mend = c8Buf.mend ∧
     (Buffer.set 3 c8Buf ⟨0, 2⟩ [9, 9]).blocks.map Block.id =
       c8Buf.blocks.map Block.id ∧
     (Buffer.set 3 c8Buf ⟨0, 2⟩ [9, 9]).blocks.length =
       c8Buf.blocks.length ∧
     (Buffer.set 3 c8Buf ⟨0, 2⟩ [9, 9]).contents.length =
       c8Buf.contents.length ∧
     (Buffer.get 3 c8Buf ⟨0, 2⟩ 2).2 = c8Buf) :=
  ⟨⟨by decide, by decide⟩,
   c8_get_set_frame 3 c8Buf ⟨0, 2⟩ [9, 9] 2 (by decide) (by decide)⟩

/-! ## C4: getIOV covers the requested range, one descriptor per block -/

theorem getIOVLoop_length (DS : Nat) :
    ∀ (max blkId lastId pos endPos : Nat), blkId ≤ lastId →
      (getIOVLoop DS blkId lastId pos endPos max).length =
        min (lastId - blkId + 1) max := by
  intro max
  induction max with
  | zero => intro blkId lastId pos endPos _; simp [getIOVLoop]
  | succ m ih =>
    intro blkId lastId pos endPos hle
    rw [getIOVLoop]
    by_cases hb : blkId = lastId
    · rw [if_pos hb]
      simp [hb]
    · rw [if_neg hb]
      simp only [List.length_cons]
      rw [ih (blkId + 1) lastId 0 endPos (by omega)]
      omega

theorem getIOVLoop_head (DS : Nat) (max blkId lastId pos endPos : Nat)
    (h : 1 ≤ max) :
    (getIOVLoop DS blkId lastId pos endPos max).head? =
      some (blkId, pos,
        if blkId = lastId then endPos - pos else DS - pos) := by
  cases max with
  | zero => omega
  | succ m =>
    rw [getIOVLoop]
    by_cases hb : blkId = lastId
    · rw [if_pos hb, if_pos hb]
      rfl
    · rw [if_neg hb, if_neg hb]
      rfl

theorem getIOVLoop_last (DS : Nat) :
    ∀ (max blkId lastId pos endPos : Nat), blkId ≤ lastId →
      lastId - blkId + 1 ≤ max →
      (getIOVLoop DS blkId lastId pos endPos max).getLast? =
        some (lastId, (if blkId = lastId then pos else 0),
          endPos - (if blkId = lastId then pos else 0)) := by
  intro max
  induction max with
  | zero => intro blkId lastId pos endPos _ h; omega
  | succ m ih =>
    intro blkId lastId pos endPos hle hcnt
    rw [getIOVLoop]
    by_cases hb : blkId = lastId
    · rw [if_pos hb]
      simp [hb]
    · rw [if_neg hb, if_neg hb]
      have hrec := ih (blkId + 1) lastId 0 endPos (by omega) (by omega)
      have hb1 : (if blkId + 1 = lastId then (0 : Nat) else 0) = 0 := by
        split <;> rfl
      rw [hb1] at hrec
      cases hl : getIOVLoop DS (blkId + 1) lastId 0 endPos m with
      | nil => rw [hl] at hrec; exact Option.noConfusion hrec
      | cons y ys =>
        rw [hl] at hrec
        rw [List.getLast?_cons_cons, hrec]

theorem findData_cons_self (blk : Block) (rest : List Block) :
    findData (blk :: rest) blk.id = blk.data := by
  simp [findData, findBlock, List.find?_cons_of_pos]

theorem findData_cons_ne (blk : Block) (rest : List Block) (id : Nat)
    (h : blk.id ≠ id) :
    findData (blk :: rest) id = findData rest id := by
  simp only [findData, findBlock]
  rw [List.find?_cons_of_neg]
  simp [h]

theorem getIOVLoop_join (DS : Nat) :
    ∀ (blocks ctx : List Block) (base lastId bg en max : Nat),
      blocks ≠ [] →
      lastId = base + blocks.length - 1 →
      blocks.map Block.id = List.range' base blocks.length →
      (∀ blk ∈ blocks, blk.data.length = DS) →
      blocks.length ≤ max →
      (∀ id, base ≤ id → findData ctx id = findData blocks id) →
      iovJoin ctx (getIOVLoop DS base lastId bg en max) =
        blocksBytes blocks bg en := by
  intro blocks
  induction blocks with
  | nil => intro ctx base lastId bg en max hne; exact absurd rfl hne
  | cons blk rest ih =>
    intro ctx base lastId bg en max _ hlast hids hdata hmax hctx
    simp only [List.map_cons, List.length_cons] at hids
    have hrr : List.range' base (rest.length + 1) =
        base :: List.range' (base + 1) rest.length := rfl
    rw [hrr] at hids
    simp only [List.cons.injEq] at hids
    obtain ⟨hbid, hrids⟩ := hids
    cases max with
    | zero => simp at hmax
    | succ m =>
      cases rest with
      | nil =>
        -- single block: base = lastId, one final descriptor
        rw [getIOVLoop]
        simp only [List.length_cons, List.length_nil] at hlast
        rw [if_pos (by omega)]
        have hfd : findData ctx base = blk.data := by
          rw [hctx base le_rfl, ← hbid, findData_cons_self]
        simp only [iovJoin, List.map_cons, List.map_nil, List.flatten]
        rw [hfd]
        have hb1 : blocksBytes [blk] bg en = (blk.data.take en).drop bg := rfl
        rw [hb1, List.drop_take]
        simp
      | cons b2 r2 =>
        -- more than one block: full descriptor for the head, recurse
        rw [getIOVLoop]
        have hne2 : base ≠ lastId := by
          simp only [List.length_cons] at hlast
          omega
        rw [if_neg hne2]
        have hfd : findData ctx base = blk.data := by
          rw [hctx base le_rfl, ← hbid, findData_cons_self]
        have hlen : blk.data.length = DS := hdata blk (by simp)
        have hbytes : (blk.data.drop bg).take (DS - bg) = blk.data.drop bg := by
          apply List.take_of_length_le
          rw [List.length_drop, hlen]
        have hmax2 : (b2 :: r2).length ≤ m := by
          simp only [List.length_cons] at hmax ⊢
          omega
        have hlast2 : lastId = base + 1 + (b2 :: r2).length - 1 := by
          simp only [List.length_cons] at hlast ⊢
          omega
        have hctx2 : ∀ id, base + 1 ≤ id →
            findData ctx id = findData (b2 :: r2) id := by
          intro id hid
          rw [hctx id (by omega)]
          apply findData_cons_ne
          rw [hbid]
          omega
        have hrec := ih ctx (base + 1) lastId 0 en m (by simp) hlast2 hrids
          (fun x hx => hdata x (by simp [hx])) hmax2 hctx2
        have hj : iovJoin ctx ((base, bg, DS - bg) ::
            getIOVLoop DS (base + 1) lastId 0 en m) =
            ((findData ctx base).drop bg).take (DS - bg) ++
              iovJoin ctx (getIOVLoop DS (base + 1) lastId 0 en m) := rfl
        rw [hj, hfd, hbytes, hrec]
        rfl

theorem wf_headId (DS : Nat) (b : Buffer) (hwf : WF DS b) :
    b.headId = b.blockId - b.blocks.length := by
  obtain ⟨_, hne, _, hids, _⟩ := hwf
  simp only [Buffer.headId]
  rw [← List.head?_map, hids]
  cases hlen : b.blocks.length with
  | zero => exact absurd (List.length_eq_zero.mp hlen) hne
  | succ n =>
    have hrr : List.range' (b.blockId - (n + 1)) (n + 1) =
        (b.blockId - (n + 1)) :: List.range' (b.blockId - (n + 1) + 1) n := rfl
    rw [hrr]
    rfl

theorem wf_lastId (DS : Nat) (b : Buffer) (hwf : WF DS b) :
    b.lastId = b.blockId - 1 := by
  obtain ⟨_, hne, hcnt, hids, _⟩ := hwf
  simp only [Buffer.lastId]
  rw [← List.getLast?_map, hids]
  have hlen : b.blocks.length ≠ 0 := by
    intro hc
    exact hne (List.length_eq_zero.mp hc)
  have h1 : b.blocks.length = (b.blocks.length - 1) + 1 := by omega
  rw [h1, List.range'_1_concat, List.getLast?_concat]
  simp only [Option.getD_some]
  omega

/-- C4: for `start <= end`, getIOV writes one descriptor per block
traversed (count = number of blocks from start's to end's, capped at
`max_size`), the first descriptor starts at start's offset, the last (when
not capped) ends at end's offset, and for the full range `begin()..end()`
the concatenation of the descriptor spans is exactly the buffer's logical
byte sequence. -/
theorem c4_getIOV_covers (DS : Nat) (b : Buffer) (start stop : Iter)
    (max : Nat) (hwf : WF DS b) (hss : start.id ≤ stop.id) :
    (Buffer.getIOV DS b start stop max).length =
      min (stop.id - start.id + 1) max ∧
    (1 ≤ max → (Buffer.getIOV DS b start stop max).head? =
      some (start.id, start.off,
        if start.id = stop.id then stop.off - start.off
        else DS - start.off)) ∧
    (stop.id - start.id + 1 ≤ max →
      (Buffer.getIOV DS b start stop max).getLast? =
        some (stop.id, (if start.id = stop.id then start.off else 0),
          stop.off - (if start.id = stop.id then start.off else 0))) ∧
    (b.blocks.length ≤ max →
      iovJoin b.blocks (Buffer.getIOV DS b b.beginIter b.endIter max) =
        b.contents) := by
  refine ⟨getIOVLoop_length DS max start.id stop.id start.off stop.off hss,
    fun h => getIOVLoop_head DS max start.id stop.id start.off stop.off h,
    fun h => getIOVLoop_last DS max start.id stop.id start.off stop.off hss h,
    fun hmax => ?_⟩
  have hh := wf_headId DS b hwf
  have hl := wf_lastId DS b hwf
  obtain ⟨hDS, hne, hcnt, hids, hdata, _⟩ := hwf
  have hlen : b.blocks.length ≠ 0 := by
    intro hc
    exact hne (List.length_eq_zero.mp hc)
  simp only [Buffer.getIOV, Buffer.beginIter, Buffer.endIter, Buffer.contents]
  refine getIOVLoop_join DS b.blocks b.blocks b.headId b.lastId
    b.mbegin b.mend max hne ?_ ?_ hdata hmax (fun _ _ => rfl)
  · rw [hh, hl]; omega
  · rw [hh]; exact hids

/-- A two-block buffer for the C4 witness. -/
def c4Buf : Buffer := ⟨[⟨0, [1, 2, 3]⟩, ⟨1, [4, 5, 6]⟩], 2, 1, 2, []⟩

/-- Witness for C4 at a concrete input: the range (0,1)..(1,2) of a
two-block buffer, max = 8. -/
theorem c4_witness :
    (WF 3 c4Buf ∧ (⟨0, 1⟩ : Iter).id ≤ (⟨1, 2⟩ : Iter).id) ∧
    ((Buffer.getIOV 3 c4Buf ⟨0, 1⟩ ⟨1, 2⟩ 8).length =
      min ((⟨1, 2⟩ : Iter).id - (⟨0, 1⟩ : Iter).id + 1) 8 ∧
    (1 ≤ 8 → (Buffer.getIOV 3 c4Buf ⟨0, 1⟩ ⟨1, 2⟩ 8).head? =
      some ((⟨0, 1⟩ : Iter).id, (⟨0, 1⟩ : Iter).off,
        if (⟨0, 1⟩ : Iter).id = (⟨1, 2⟩ : Iter).id
        then (⟨1, 2⟩ : Iter).off - (⟨0, 1⟩ : Iter).off
        else 3 - (⟨0, 1⟩ : Iter).off)) ∧
    ((⟨1, 2⟩ : Iter).id - (⟨0, 1⟩ : Iter).id + 1 ≤ 8 →
      (Buffer.getIOV 3 c4Buf ⟨0, 1⟩ ⟨1, 2⟩ 8).getLast? =
        some ((⟨1, 2⟩ : Iter).id,
          (if (⟨0, 1⟩ : Iter).id = (⟨1, 2⟩ : Iter).id
           then (⟨0, 1⟩ : Iter).off else 0),
          (⟨1, 2⟩ : Iter).off -
            (if (⟨0, 1⟩ : Iter).id = (⟨1, 2⟩ : Iter).id
             then (⟨0, 1⟩ : Iter).off else 0))) ∧
    (c4Buf.blocks.length ≤ 8 →
      iovJoin c4Buf.blocks (Buffer.getIOV 3 c4Buf c4Buf.beginIter
        c4Buf.endIter 8) = c4Buf.contents)) :=
  ⟨⟨by decide, by decide⟩,
   c4_getIOV_covers 3 c4Buf ⟨0, 1⟩ ⟨1, 2⟩ 8 (by decide) (by decide)⟩

/-! ## C5: addBack / get round-trip -/

/-- All data areas of a block list, concatenated (dead bytes included). -/
def allDataJ (l : List Block) : List Nat := (l.map Block.data).flatten

theorem allDataJ_append (l1 l2 : List Block) :
    allDataJ (l1 ++ l2) = allDataJ l1 ++ allDataJ l2 := by
  simp [allDataJ]

theorem allDataJ_cons (x : Block) (l : List Block) :
    allDataJ (x :: l) = x.data ++ allDataJ l := rfl

theorem allDataJ_length (DS : Nat) :
    ∀ l : List Block, (∀ blk ∈ l, blk.data.length = DS) →
      (allDataJ l).length = l.length * DS := by
  intro l
  induction l with
  | nil => intro _; simp [allDataJ]
  | cons x xs ih =>
    intro h
    rw [allDataJ_cons, List.length_append, h x (by simp),
      ih (fun blk hb => h blk (by simp [hb]))]
    simp [Nat.succ_mul]
    omega

theorem drop_block (DS a : Nat) (d L : List Nat) (hd : d.length = DS) :
    (d ++ L).drop (DS + a) = L.drop a := by
  rw [List.drop_append_eq_append_drop]
  have h1 : d.drop (DS + a) = [] := by
    apply List.drop_eq_nil_of_le
    omega
  rw [h1, hd]
  simp

theorem updateLastData_concat (f : List Nat → List Nat) :
    ∀ (l : List Block) (x : Block),
      updateLastData f (l ++ [x]) = l ++ [⟨x.id, f x.data⟩] := by
  intro l
  induction l with
  | nil => intro x; rfl
  | cons y ys ih =>
    intro x
    cases ys with
    | nil => rfl
    | cons z zs =>
      have h1 : updateLastData f ((y :: z :: zs) ++ [x]) =
          y :: updateLastData f ((z :: zs) ++ [x]) := rfl
      rw [h1, ih x]
      rfl

theorem findBlock_none (blocks : List Block) (base : Nat)
    (hids : blocks.map Block.id = List.range' base blocks.length)
    (id : Nat) (h : base + blocks.length ≤ id) :
    findBlock blocks id = none := by
  apply List.find?_eq_none.mpr
  intro blk hblk
  have hmem : blk.id ∈ blocks.map Block.id := List.mem_map_of_mem _ hblk
  rw [hids] at hmem
  rw [List.mem_range'_1] at hmem
  simp only [beq_iff_eq]
  omega

theorem slice_at (DS : Nat) :
    ∀ (blocks : List Block) (base k : Nat),
      blocks.map Block.id = List.range' base blocks.length →
      (∀ blk ∈ blocks, blk.data.length = DS) →
      k < blocks.length →
      ∃ blk, findBlock blocks (base + k) = some blk ∧
        blk.data.length = DS ∧
        (allDataJ blocks).drop (k * DS) =
          blk.data ++ (allDataJ blocks).drop ((k + 1) * DS) := by
  intro blocks
  induction blocks with
  | nil => intro base k _ _ h; simp at h
  | cons x xs ih =>
    intro base k hids hdata hk
    simp only [List.map_cons, List.length_cons] at hids
    have hrr : List.range' base (xs.length + 1) =
        base :: List.range' (base + 1) xs.length := rfl
    rw [hrr] at hids
    simp only [List.cons.injEq] at hids
    obtain ⟨hxid, hxs⟩ := hids
    have hxlen : x.data.length = DS := hdata x (by simp)
    cases k with
    | zero =>
      refine ⟨x, ?_, hxlen, ?_⟩
      · simp only [findBlock]
        rw [List.find?_cons_of_pos]
        simp [hxid]
      · rw [allDataJ_cons, Nat.zero_mul, List.drop_zero, Nat.one_mul]
        have hdb := drop_block DS 0 x.data (allDataJ xs) hxlen
        rw [Nat.add_zero] at hdb
        rw [hdb, List.drop_zero]
    | succ k' =>
      have hk' : k' < xs.length := by simpa using hk
      obtain ⟨blk, hfb, hbl, hsl⟩ :=
        ih (base + 1) k' hxs (fun b hb => hdata b (by simp [hb])) hk'
      refine ⟨blk, ?_, hbl, ?_⟩
      · simp only [findBlock]
        rw [List.find?_cons_of_neg]
        · have h2 : base + (k' + 1) = base + 1 + k' := by omega
          rw [h2]
          exact hfb
        · simp only [hxid, beq_iff_eq]
          omega
      · rw [allDataJ_cons]
        have h3 : (k' + 1) * DS = DS + k' * DS := by
          rw [Nat.succ_mul]
          omega
        have h4 : (k' + 1 + 1) * DS = DS + (k' + 1) * DS := by
          rw [Nat.succ_mul ( k' + 1) DS]
          omega
        rw [h3, h4, drop_block DS _ x.data (allDataJ xs) hxlen,
          drop_block DS _ x.data (allDataJ xs) hxlen]
        exact hsl

theorem getBytes_spec (DS : Nat) (blocks : List Block) (base : Nat)
    (hids : blocks.map Block.id = List.range' base blocks.length)
    (hdata : ∀ blk ∈ blocks, blk.data.length = DS) :
    ∀ (size id off : Nat), base ≤ id → off < DS →
      getBytes DS blocks id off size =
        ((allDataJ blocks).drop ((id - base) * DS + off)).take size := by
  intro size
  induction size using Nat.strong_induction_on with
  | _ size ihs =>
    intro id off hbase hoff
    by_cases h0 : size = 0
    · subst h0
      rw [getBytes, dif_pos rfl]
      simp
    · rw [getBytes, dif_neg h0]
      by_cases hin : id - base < blocks.length
      · obtain ⟨blk, hfb, hbl, hsl⟩ :=
          slice_at DS blocks base (id - base) hids hdata hin
        have hplus : base + (id - base) = id := by omega
        rw [hplus] at hfb
        simp only [hfb]
        have hc : 0 < min size (DS - off) := by omega
        rw [dif_pos hc]
        have hrec := ihs (size - min size (DS - off))
          (by omega) (id + 1) 0 (by omega) (by omega)
        rw [hrec]
        have hpos1 : (id + 1 - base) * DS + 0 = (id - base + 1) * DS := by
          have : id + 1 - base = id - base + 1 := by omega
          rw [this]
          omega
        rw [hpos1]
        -- rewrite the right-hand slice through the block decomposition
        have hdd : (allDataJ blocks).drop ((id - base) * DS + off) =
            blk.data.drop off ++ (allDataJ blocks).drop ((id - base + 1) * DS) := by
          rw [← List.drop_drop, hsl, List.drop_append_eq_append_drop]
          have h6 : off - blk.data.length = 0 := by omega
          rw [h6, List.drop_zero]
        rw [hdd, List.take_append_eq_append_take, List.length_drop, hbl]
        congr 1
        · -- the in-block chunk
          rcases le_or_lt size (DS - off) with hle | hlt
          · have : min size (DS - off) = size := by omega
            rw [this]
          · have hcmin : min size (DS - off) = DS - off := by omega
            rw [hcmin]
            rw [List.take_of_length_le (by rw [List.length_drop, hbl]),
              List.take_of_length_le (by rw [List.length_drop, hbl]; omega)]
        · -- the carried-over size
          congr 1
          omega
      · have hnone : findBlock blocks id = none :=
          findBlock_none blocks base hids id (by omega)
        rw [hnone]
        have hlenJ : (allDataJ blocks).length = blocks.length * DS :=
          allDataJ_length DS blocks hdata
        have hdz : (allDataJ blocks).drop ((id - base) * DS + off) = [] := by
          apply List.drop_eq_nil_of_le
          rw [hlenJ]
          have : blocks.length * DS ≤ (id - base) * DS :=
            Nat.mul_le_mul_right DS (by omega)
          omega
        rw [hdz]
        simp

theorem writeAt_zero (d src : List Nat) :
    writeAt d 0 src = src ++ d.drop src.length := by
  simp [writeAt]

theorem head?_append_left (l1 l2 : List Block) (h : l1 ≠ []) :
    (l1 ++ l2).head? = l1.head? := by
  cases l1 with
  | nil => exact absurd rfl h
  | cons x xs => rfl

/-- The bytes laid down by the addBack loop: the data areas of the final
transient list are those of all but its last input block, then the
remaining source bytes, then whatever trailing garbage. -/
theorem addLoop_ok_data (DS : Nat) :
    ∀ (n : Nat) (s : List Nat), s.length = n →
      ∀ (blockId budget : Nat) (pre : List Block) (x : Block)
        (tl : List Block) (id' mend' : Nat),
        x.data.length = DS →
        addLoop DS s blockId budget (pre ++ [x]) = .ok (tl, id', mend') →
        ∃ junk, allDataJ tl = allDataJ pre ++ s ++ junk := by
  intro n
  induction n using Nat.strong_induction_on with
  | _ n ihn =>
    intro s hn blockId budget pre x tl id' mend' hx h
    rw [addLoop] at h
    by_cases hg : 0 < DS ∧ DS ≤ s.length
    · rw [dif_pos hg] at h
      cases budget with
      | zero => exact Except.noConfusion h
      | succ bu =>
        rw [updateLastData_concat] at h
        have htake : (writeAt x.data 0 (s.take DS)) = s.take DS := by
          rw [writeAt_zero]
          have h1 : (s.take DS).length = DS := by
            rw [List.length_take]
            omega
          rw [h1, ← hx, List.drop_length, List.append_nil]
        have happ : (pre ++ [⟨x.id, writeAt x.data 0 (s.take DS)⟩]) ++
            [freshBlock DS blockId] =
            (pre ++ [⟨x.id, writeAt x.data 0 (s.take DS)⟩]) ++
              [freshBlock DS blockId] := rfl
        obtain ⟨junk, hj⟩ := ihn (s.drop DS).length
          (by rw [List.length_drop]; omega) (s.drop DS) rfl (blockId + 1) bu
          (pre ++ [⟨x.id, writeAt x.data 0 (s.take DS)⟩])
          (freshBlock DS blockId) tl id' mend'
          (by simp [freshBlock]) h
        refine ⟨junk, ?_⟩
        have h2 : allDataJ [(⟨x.id, writeAt x.data 0 (s.take DS)⟩ : Block)] =
            s.take DS := by
          simp [allDataJ, htake]
        rw [hj, allDataJ_append, h2,
          List.append_assoc (allDataJ pre) (List.take DS s) (List.drop DS s),
          List.take_append_drop]
    · rw [dif_neg hg] at h
      rw [updateLastData_concat] at h
      simp only [Except.ok.injEq, Prod.mk.injEq] at h
      obtain ⟨h1, _, _⟩ := h
      refine ⟨x.data.drop s.length, ?_⟩
      rw [← h1, allDataJ_append]
      have h2 : allDataJ [(⟨x.id, writeAt x.data 0 s⟩ : Block)] =
          s ++ x.data.drop s.length := by
        simp [allDataJ, writeAt_zero]
      rw [h2, List.append_assoc]

theorem updateLastData_data_length (DS : Nat) (f : List Nat → List Nat)
    (hf : ∀ d, d.length = DS → (f d).length = DS) :
    ∀ l : List Block, (∀ blk ∈ l, blk.data.length = DS) →
      ∀ blk ∈ updateLastData f l, blk.data.length = DS := by
  intro l
  induction l with
  | nil => intro _ blk hblk; simp [updateLastData] at hblk
  | cons x xs ih =>
    intro h blk hblk
    cases xs with
    | nil =>
      simp only [updateLastData, List.mem_singleton] at hblk
      rw [hblk]
      exact hf x.data (h x (by simp))
    | cons y ys =>
      have h1 : updateLastData f (x :: y :: ys) =
          x :: updateLastData f (y :: ys) := rfl
      rw [h1] at hblk
      rcases List.mem_cons.mp hblk with hx | hrest
      · rw [hx]
        exact h x (by simp)
      · exact ih (fun b hb => h b (by simp [hb])) blk hrest

theorem addLoop_ok_dlen (DS : Nat) (hDS : 0 < DS) (s : List Nat)
    (blockId budget : Nat) (trans : List Block) :
    ∀ tl id' mend',
      (∀ blk ∈ trans, blk.data.length = DS) →
      addLoop DS s blockId budget trans = .ok (tl, id', mend') →
      ∀ blk ∈ tl, blk.data.length = DS := by
  induction s, blockId, budget, trans using addLoop.induct DS with
  | case1 s blockId trans hg =>
    intro tl id' mend' _ h
    rw [addLoop] at h
    simp only [dif_pos hg] at h
    exact Except.noConfusion h
  | case2 s blockId trans hg trans' bu ih =>
    intro tl id' mend' hd h
    rw [addLoop] at h
    simp only [dif_pos hg] at h
    refine ih tl id' mend' ?_ h
    intro blk hblk
    rcases List.mem_append.mp hblk with hin | hfr
    · refine updateLastData_data_length DS _ ?_ trans hd blk hin
      intro d hdl
      rw [writeAt_length]
      · exact hdl
      · rw [hdl, List.length_take]
        omega
    · simp only [List.mem_singleton] at hfr
      rw [hfr]
      simp [freshBlock]
  | case3 s blockId budget trans hg =>
    intro tl id' mend' hd h
    rw [addLoop] at h
    simp only [dif_neg hg, Except.ok.injEq, Prod.mk.injEq] at h
    obtain ⟨h1, _, _⟩ := h
    rw [← h1]
    refine updateLastData_data_length DS _ ?_ trans hd
    intro d hdl
    rw [writeAt_length]
    · exact hdl
    · rw [hdl]
      rcases Nat.lt_or_ge s.length DS with hlt | hge
      · omega
      · exact absurd ⟨hDS, hge⟩ hg

/-- Reading back at the pre-append end position through the flattened
layout: the slice right after the preserved prefix is the appended
source. -/
theorem read_slice (DS : Nat) (bl : List Block) (base nb mend : Nat)
    (pre0J tkm s junk : List Nat)
    (hids : bl.map Block.id = List.range' base bl.length)
    (hdata : ∀ blk ∈ bl, blk.data.length = DS)
    (hJ : allDataJ bl = pre0J ++ tkm ++ s ++ junk)
    (hplen : pre0J.length = (nb - 1) * DS)
    (htlen : tkm.length = mend)
    (hmend : mend < DS) :
    getBytes DS bl (base + (nb - 1)) mend s.length = s := by
  rw [getBytes_spec DS bl base hids hdata s.length (base + (nb - 1)) mend
    (by omega) hmend]
  have hsub : base + (nb - 1) - base = nb - 1 := by omega
  rw [hsub, hJ]
  have hshape : pre0J ++ tkm ++ s ++ junk =
      (pre0J ++ tkm) ++ (s ++ junk) := by
    rw [List.append_assoc (pre0J ++ tkm) s junk]
  rw [hshape]
  have hlen12 : (pre0J ++ tkm).length = (nb - 1) * DS + mend := by
    rw [List.length_append, hplen, htlen]
  rw [← hlen12, List.drop_left]
  have hslen : s.length = s.length := rfl
  calc (s ++ junk).take s.length = s := List.take_left s junk


/-- C5: appending a non-empty byte sequence and reading the same number of
bytes back from the position where `end()` stood before the call yields
exactly that sequence (for every buffer and any allocation budget under
which `addBack` returns); `begin()` is unchanged, and on a fresh buffer
the read-back from `begin()` itself equals the appended sequence. -/
theorem c5_addBack_get_roundtrip (DS : Nat) (b : Buffer) (s : List Nat)
    (budget : Nat) (b' : Buffer) (hwf : WF DS b) (hs : s ≠ [])
    (hok : addBackData DS b s budget = .ok b') :
    getBytes DS b'.blocks b.lastId b.mend s.length = s ∧
    b'.beginIter = b.beginIter ∧
    (b = Buffer.fresh DS →
      getBytes DS b'.blocks b'.headId b'.mbegin s.length = s) := by
  obtain ⟨hDS, hne, hcnt, hids, hdata, hmb, hmend, hone⟩ := hwf
  have hlastId := wf_lastId DS b
    ⟨hDS, hne, hcnt, hids, hdata, hmb, hmend, hone⟩
  have hheadId := wf_headId DS b
    ⟨hDS, hne, hcnt, hids, hdata, hmb, hmend, hone⟩
  obtain ⟨pre0, lastBlk, hbl⟩ :
      ∃ pre0 lastBlk, b.blocks = pre0 ++ [lastBlk] := by
    rcases List.eq_nil_or_concat b.blocks with hnil | ⟨L, x, hLx⟩
    · exact absurd hnil hne
    · exact ⟨L, x, by rw [hLx]; simp⟩
  have hlastlen : lastBlk.data.length = DS := by
    refine hdata lastBlk ?_
    rw [hbl]
    simp
  have hprelen : ∀ blk ∈ pre0, blk.data.length = DS := by
    intro blk hblk
    refine hdata blk ?_
    rw [hbl]
    simp [hblk]
  have hpre0J : (allDataJ pre0).length = (b.blocks.length - 1) * DS := by
    rw [allDataJ_length DS pre0 hprelen]
    have : pre0.length = b.blocks.length - 1 := by
      rw [hbl]
      simp
    rw [this]
  have htkm : (lastBlk.data.take b.mend).length = b.mend := by
    rw [List.length_take]
    omega
  have hlen1 : 1 ≤ b.blocks.length := by
    rw [hbl]
    simp
  set base := b.blockId - b.blocks.length with hbase
  have hlastpos : b.lastId = base + (b.blocks.length - 1) := by
    rw [hlastId]
    omega
  -- both addBack paths produce the same flattened layout shape
  have hmain :
      (∃ junk, allDataJ b'.blocks =
          allDataJ pre0 ++ lastBlk.data.take b.mend ++ s ++ junk) ∧
      b'.blocks.map Block.id = List.range' base b'.blocks.length ∧
      (∀ blk ∈ b'.blocks, blk.data.length = DS) ∧
      b'.beginIter = b.beginIter := by
    unfold addBackData at hok
    by_cases hf : s.length < DS - b.mend
    · rw [if_pos hf] at hok
      simp only [Except.ok.injEq] at hok
      subst hok
      refine ⟨⟨lastBlk.data.drop (b.mend + s.length), ?_⟩, ?_, ?_, ?_⟩
      · simp only
        rw [hbl, updateLastData_concat, allDataJ_append]
        have hw : allDataJ [(⟨lastBlk.id,
            writeAt lastBlk.data b.mend s⟩ : Block)] =
            lastBlk.data.take b.mend ++ s ++
              lastBlk.data.drop (b.mend + s.length) := by
          simp [allDataJ, writeAt]
        rw [hw, ← List.append_assoc, ← List.append_assoc]
      · simp only
        rw [updateLastData_map_id, hids, updateLastData_length]
      · simp only
        refine updateLastData_data_length DS _ ?_ b.blocks hdata
        intro d hdl
        rw [writeAt_length]
        · exact hdl
        · omega
      · simp only [Buffer.beginIter, Buffer.headId]
        rw [map_id_head? _ _ (updateLastData_map_id _ _)]
    · rw [if_neg hf] at hok
      split at hok
      · exact Except.noConfusion hok
      · split at hok
        · exact Except.noConfusion hok
        · rename_i tl id' mend' hl
          simp only [Except.ok.injEq] at hok
          subst hok
          obtain ⟨hmap, hble⟩ := addLoop_ok_ids DS _ _ _ _ _ _ _ hl
          obtain ⟨junk, hj⟩ := addLoop_ok_data DS (s.drop (DS - b.mend)).length
            (s.drop (DS - b.mend)) rfl (b.blockId + 1) _ [] (freshBlock DS b.blockId)
            tl id' mend' (by simp [freshBlock])
            (by simpa using hl)
          have hdlen : ∀ blk ∈ tl, blk.data.length = DS :=
            addLoop_ok_dlen DS hDS _ _ _ _ tl id' mend'
              (by intro blk hblk; simp only [List.mem_singleton] at hblk;
                  rw [hblk]; simp [freshBlock]) hl
          have hleft : (s.take (DS - b.mend)).length = DS - b.mend := by
            rw [List.length_take]
            omega
          refine ⟨⟨junk, ?_⟩, ?_, ?_, ?_⟩
          · simp only
            rw [allDataJ_append, hbl, updateLastData_concat, allDataJ_append]
            have hw : allDataJ [(⟨lastBlk.id,
                writeAt lastBlk.data b.mend (s.take (DS - b.mend))⟩ : Block)] =
                lastBlk.data.take b.mend ++ s.take (DS - b.mend) := by
              simp only [allDataJ, List.map_cons, List.map_nil,
                List.flatten_cons, List.flatten_nil, List.append_nil, writeAt]
              rw [hleft]
              have hdz : lastBlk.data.drop (b.mend + (DS - b.mend)) = [] := by
                apply List.drop_eq_nil_of_le
                omega
              rw [hdz, List.append_nil]
            rw [hw, hj]
            have hjq : allDataJ [] ++ s.drop (DS - b.mend) ++ junk =
                s.drop (DS - b.mend) ++ junk := by
              simp [allDataJ]
            rw [hjq]
            rw [List.append_assoc (allDataJ pre0)
              (lastBlk.data.take b.mend ++ s.take (DS - b.mend))
              (s.drop (DS - b.mend) ++ junk)]
            rw [List.append_assoc (lastBlk.data.take b.mend)
              (s.take (DS - b.mend)) (s.drop (DS - b.mend) ++ junk),
              ← List.append_assoc (s.take (DS - b.mend))
                (s.drop (DS - b.mend)) junk,
              List.take_append_drop]
            simp only [List.append_assoc]
          · simp only
            rw [List.map_append, updateLastData_map_id, hids, hmap]
            simp only [List.map_cons, List.map_nil, freshBlock,
              List.singleton_append]
            have h1 : id' - (b.blockId + 1) + 1 = id' - b.blockId := by omega
            have hcons : (b.blockId : Nat) ::
                List.range' (b.blockId + 1) (id' - (b.blockId + 1)) =
                List.range' b.blockId (id' - b.blockId) := by
              rw [← h1]
              rfl
            rw [hcons]
            have hlen' : (updateLastData
                (fun d => writeAt d b.mend (s.take (DS - b.mend)))
                b.blocks ++ tl).length = b.blocks.length + (id' - b.blockId) := by
              rw [List.length_append, updateLastData_length]
              have := congrArg List.length hmap
              simp only [List.length_map, List.length_append, List.length_cons,
                List.length_nil, List.length_range'] at this
              omega
            rw [hlen']
            have hbid : b.blockId = base + b.blocks.length := by
              rw [hbase]
              omega
            rw [hbid]
            have := List.range'_append base b.blocks.length
              (id' - (base + b.blocks.length)) 1
            simp only [Nat.one_mul] at this
            rw [this]
            congr 1
            omega
          · simp only
            intro blk hblk
            rcases List.mem_append.mp hblk with h1 | h2
            · refine updateLastData_data_length DS _ ?_ b.blocks hdata blk h1
              intro d hdl
              rw [writeAt_length]
              · exact hdl
              · rw [hdl, hleft]
                omega
            · exact hdlen blk h2
          · simp only [Buffer.beginIter, Buffer.headId]
            rw [head?_append_left]
            · rw [map_id_head? _ _ (updateLastData_map_id _ _)]
            · intro hc
              have := congrArg List.length hc
              rw [updateLastData_length] at this
              simp at this
              exact hne this
  obtain ⟨⟨junk, hJ⟩, hids', hdata', hbegin⟩ := hmain
  have hread : getBytes DS b'.blocks b.lastId b.mend s.length = s := by
    rw [hlastpos]
    exact read_slice DS b'.blocks base b.blocks.length b.mend
      (allDataJ pre0) (lastBlk.data.take b.mend) s junk hids' hdata' hJ
      hpre0J htkm hmend
  refine ⟨hread, hbegin, ?_⟩
  intro hfresh
  have hh' : b'.headId = b.headId := congrArg Iter.id hbegin
  have hb' : b'.mbegin = b.mbegin := congrArg Iter.off hbegin
  rw [hh', hb', hfresh]
  have h1 : (Buffer.fresh DS).headId = 0 := rfl
  have h2 : (Buffer.fresh DS).mbegin = 0 := rfl
  rw [h1, h2]
  have h3 : b.lastId = 0 := by rw [hfresh]; rfl
  have h4 : b.mend = 0 := by rw [hfresh]; rfl
  rw [h3, h4] at hread
  exact hread

/-- Witness for C5 at a concrete input: a 4-byte append on a fresh buffer
with 3-byte blocks spans two blocks; the read-back from begin() is exact. -/
theorem c5_witness :
    (WF 3 (Buffer.fresh 3) ∧ ([5, 6, 7, 8] : List Nat) ≠ [] ∧
      addBackData 3 (Buffer.fresh 3) [5, 6, 7, 8] 9 =
        .ok ⟨[⟨0, [5, 6, 7]⟩, ⟨1, [8, 0, 0]⟩], 2, 0, 1, []⟩) ∧
    (getBytes 3 (⟨[⟨0, [5, 6, 7]⟩, ⟨1, [8, 0, 0]⟩], 2, 0, 1, []⟩ : Buffer).blocks
        (Buffer.fresh 3).lastId (Buffer.fresh 3).mend
        ([5, 6, 7, 8] : List Nat).length = [5, 6, 7, 8] ∧
     (⟨[⟨0, [5, 6, 7]⟩, ⟨1, [8, 0, 0]⟩], 2, 0, 1, []⟩ : Buffer).beginIter =
       (Buffer.fresh 3).beginIter ∧
     (Buffer.fresh 3 = Buffer.fresh 3 →
       getBytes 3
         (⟨[⟨0, [5, 6, 7]⟩, ⟨1, [8, 0, 0]⟩], 2, 0, 1, []⟩ : Buffer).blocks
         (⟨[⟨0, [5, 6, 7]⟩, ⟨1, [8, 0, 0]⟩], 2, 0, 1, []⟩ : Buffer).headId
         (⟨[⟨0, [5, 6, 7]⟩, ⟨1, [8, 0, 0]⟩], 2, 0, 1, []⟩ : Buffer).mbegin
         ([5, 6, 7, 8] : List Nat).length = [5, 6, 7, 8])) :=
  ⟨⟨by decide, by decide,
    by simp [addBackData, addLoop, Buffer.fresh, freshBlock, updateLastData,
      writeAt]⟩,
   c5_addBack_get_roundtrip 3 (Buffer.fresh 3) [5, 6, 7, 8] 9 _ (by decide)
     (by decide)
     (by simp [addBackData, addLoop, Buffer.fresh, freshBlock, updateLastData,
       writeAt])⟩

/-! ## C6: insert followed by release is NOT the identity

The copy loop of `insert` clamps the source start of the block containing
the insertion point via the `src_block_begin` macro, but the
`left_in_src_block >= left_in_dst_block` branch sets
`src = src_block->begin()` instead of `src_block_begin`.  When that branch
runs on the iterator's block with `itr` at a positive offset, bytes below
the iterator are copied into the shifted region instead of the bytes at
the iterator, so `insert` corrupts the shifted suffix and
`insert; release` loses data. -/

/-- A buffer holding [10, 11] in one 3-byte block, with an iterator
registered at offset 1. -/
def c6Buf : Buffer := ⟨[⟨0, [10, 11, 12]⟩], 1, 0, 2, [⟨0, 1⟩]⟩

/-- C6 evaluated at the failing input: the preconditions of the claim hold
(well-formed buffer, registered live iterator, size below DATA_SIZE), yet
`insert(i,1); release(i,1)` turns the byte content [10, 11] into [10, 10]. -/
theorem c6_insert_release_not_identity :
    WF 3 c6Buf ∧ c6Buf.iters = [⟨0, 1⟩] ∧ (1 : Nat) < 3 ∧
    c6Buf.contents = [10, 11] ∧
    (Buffer.release 3 (Buffer.insert 3 c6Buf ⟨0, 1⟩ 1) ⟨0, 1⟩ 1).contents
      = [10, 10] ∧
    ¬(Buffer.release 3 (Buffer.insert 3 c6Buf ⟨0, 1⟩ 1) ⟨0, 1⟩ 1).contents
      = c6Buf.contents := by
  refine ⟨by decide, rfl, by decide, by decide, ?_, ?_⟩ <;>
    simp [c6Buf, Buffer.insert, Buffer.release, addBackAdvance, advanceLoop,
      insertLoop, releaseLoop, bumpIters, bumpRev, rewindIters, rewindRev,
      moveForward, moveBackward, Buffer.dropBack, dropBackLoop, updBlock,
      findData, findBlock, writeAt, freshBlock, Buffer.contents, blocksBytes,
      Buffer.lastId, List.find?]

/-! ## C7: flush

`flush` drops the distance from `begin()` to the first registered iterator
(to `end()` when none is registered).  When that iterator sits at offset 0
of a non-head block, the drop ends exactly at a block boundary and
`m_begin` lands at offset `DATA_SIZE` of the previous block: the same
logical position, but not the same (block, offset) pair as the iterator,
so "begin() equals the previously first registered iterator" fails. -/

/-- A buffer holding [1..6] in two 4-byte blocks, with an iterator
registered at offset 0 of the second block. -/
def c7Buf : Buffer := ⟨[⟨0, [1, 2, 3, 4]⟩, ⟨1, [5, 6, 7, 8]⟩], 2, 0, 2, [⟨1, 0⟩]⟩

/-- C7 counterexample: the claim's preconditions hold (well-formed buffer,
first registered iterator ⟨1, 0⟩ live inside [begin, end]), flush does drop
exactly the bytes before the iterator, yet afterwards begin() is the pair
(block 0, offset 4) — the previous block's end — not the iterator ⟨1, 0⟩. -/
theorem c7_counterexample :
    WF 4 c7Buf ∧ c7Buf.iters.head? = some ⟨1, 0⟩ ∧
    c7Buf.headId ≤ 1 ∧ 1 ≤ c7Buf.lastId ∧
    c7Buf.contents = [1, 2, 3, 4, 5, 6] ∧
    (Buffer.flush 4 c7Buf).contents = [5, 6] ∧
    ¬(Buffer.flush 4 c7Buf).beginIter = ⟨1, 0⟩ := by
  refine ⟨by decide, rfl, by decide, by decide, by decide, ?_, ?_⟩ <;>
    simp [Buffer.flush, iterSub, W64, Buffer.dropFront, dropFrontLoop,
      Buffer.beginIter, Buffer.endIter, Buffer.headId, Buffer.lastId,
      Buffer.contents, blocksBytes, c7Buf]

/-- The dropFront loop drops exactly `size` bytes from the live byte
sequence, provided `size` does not reach past the live area. -/
theorem dropFrontLoop_contents (DS : Nat) :
    ∀ (blocks : List Block) (mbegin mend size : Nat),
      (∀ blk ∈ blocks, blk.data.length = DS) →
      mbegin ≤ DS → mend ≤ DS →
      mbegin + size ≤ DS * (blocks.length - 1) + mend →
      blocksBytes (dropFrontLoop DS blocks mbegin size).1
          (dropFrontLoop DS blocks mbegin size).2 mend =
        (blocksBytes blocks mbegin mend).drop size := by
  intro blocks
  induction blocks with
  | nil =>
    intro mbegin mend size _ _ _ _
    rw [dropFrontLoop]
    split <;> simp [blocksBytes]
  | cons blk rest ih =>
    intro mbegin mend size hdl hmb hme hsz
    have hblk : blk.data.length = DS := hdl blk (by simp)
    rw [dropFrontLoop]
    split
    next hgt =>
      cases rest with
      | nil => simp only [List.length_cons, List.length_nil] at hsz; omega
      | cons r rs =>
        have harg := ih 0 mend (size - (DS - mbegin))
          (fun b hb => hdl b (by simp [hb])) (Nat.zero_le _) hme
          (by
            have hA : DS * ((blk :: r :: rs).length - 1) =
                DS * ((r :: rs).length - 1) + DS := by
              simp [Nat.mul_succ]
            omega)
        show blocksBytes (dropFrontLoop DS (r :: rs) 0 (size - (DS - mbegin))).1
            (dropFrontLoop DS (r :: rs) 0 (size - (DS - mbegin))).2 mend = _
        rw [harg]
        show _ = (blk.data.drop mbegin ++ blocksBytes (r :: rs) 0 mend).drop size
        rw [List.drop_append_eq_append_drop]
        have hnil : (blk.data.drop mbegin).drop size = [] := by
          apply List.drop_eq_nil_of_le
          simp [hblk]; omega
        rw [hnil, List.nil_append]
        congr 1
        simp [hblk]
    next hle =>
      cases rest with
      | nil =>
        show (blk.data.take mend).drop (mbegin + size) =
          ((blk.data.take mend).drop mbegin).drop size
        rw [List.drop_drop]
      | cons r rs =>
        show blk.data.drop (mbegin + size) ++ blocksBytes (r :: rs) 0 mend =
          (blk.data.drop mbegin ++ blocksBytes (r :: rs) 0 mend).drop size
        rw [List.drop_append_eq_append_drop]
        have h2 : size - (blk.data.drop mbegin).length = 0 := by
          simp [hblk]; omega
        rw [h2, List.drop_zero, List.drop_drop]

/-- Where the dropFront loop lands when the size is the logical distance to
a position (iid, ioff): on block `iid`, at offset `ioff` — provided the
distance does not end exactly at a block boundary (ioff = 0 on a non-head
block). -/
theorem dropFrontLoop_land (DS : Nat) :
    ∀ (blocks : List Block) (base mbegin iid ioff : Nat),
      base ≤ iid → iid - base < blocks.length →
      ioff < DS → mbegin ≤ DS →
      (iid = base → mbegin ≤ ioff) →
      (0 < ioff ∨ iid = base) →
      dropFrontLoop DS blocks mbegin ((iid - base) * DS + ioff - mbegin) =
        (blocks.drop (iid - base), ioff) := by
  intro blocks
  induction blocks with
  | nil => intro base mbegin iid ioff _ h2 _ _ _ _; simp at h2
  | cons blk rest ih =>
    intro base mbegin iid ioff hbase hlt hioff hmb hbeg hpos
    by_cases hid : iid = base
    · subst hid
      have hbeg' := hbeg rfl
      rw [dropFrontLoop, if_neg (by simp; omega)]
      simp
      omega
    · have hioff0 : 0 < ioff := hpos.resolve_right hid
      obtain ⟨k, hk⟩ : ∃ k, iid - base = k + 1 := ⟨iid - base - 1, by omega⟩
      have hmul : (iid - base) * DS = k * DS + DS := by rw [hk, Nat.succ_mul]
      rw [dropFrontLoop, if_pos (by rw [hmul]; omega)]
      show dropFrontLoop DS rest 0 ((iid - base) * DS + ioff - mbegin - (DS - mbegin)) = _
      have hmul2 : (iid - (base + 1)) * DS = k * DS := by
        rw [show iid - (base + 1) = k from by omega]
      have harg : (iid - base) * DS + ioff - mbegin - (DS - mbegin) =
          (iid - (base + 1)) * DS + ioff - 0 := by
        rw [hmul, hmul2]; omega
      rw [harg, ih (base + 1) 0 iid ioff (by omega)
        (by simp only [List.length_cons] at hlt; omega) hioff (Nat.zero_le _)
        (fun _ => Nat.zero_le _) (Or.inl hioff0)]
      rw [show iid - base = (iid - (base + 1)) + 1 from by omega,
        List.drop_succ_cons]

/-- The id of the head block after dropping `k` blocks, read off the
contiguous-ids invariant. -/
theorem headId_drop (blocks : List Block) (s n k : Nat)
    (hmap : blocks.map Block.id = List.range' s n) (hk : k < n) :
    (((blocks.drop k).head?).map Block.id).getD 0 = s + k := by
  have hlen : blocks.length = n := by
    have h := congrArg List.length hmap; simpa using h
  rw [List.head?_drop]
  have hswap : blocks[k]?.map Block.id = (blocks.map Block.id)[k]? := by
    simp
  rw [hswap, hmap, List.getElem?_eq_getElem (by simpa using hk)]
  simp [List.getElem_range']

/-- C7 amended: flush removes exactly the logical distance from begin() to
the first registered iterator `t` (to end() when none is registered: take
`t = endIter`), it is a no-op when that distance is zero, and afterwards
begin() equals `t` whenever `t` does not sit at offset 0 of a non-head
block.  The hypotheses are the claim's preconditions: a well-formed buffer
whose begin() is strictly inside the head block, `t` the first registered
iterator (or end()), `t` live inside [begin, end], and the distance far
below 2^64 so that the size_t arithmetic of operator- is exact. -/
theorem c7_flush_amended (DS : Nat) (b : Buffer) (t : Iter)
    (hwf : WF DS b) (hmb : b.mbegin < DS)
    (ht : (b.iters.head?).getD b.endIter = t)
    (ht1 : b.headId ≤ t.id) (ht2 : t.id - b.headId < b.blocks.length)
    (ht3 : t.off < DS)
    (ht4 : t.id = b.headId → b.mbegin ≤ t.off)
    (ht5 : t.id - b.headId = b.blocks.length - 1 → t.off ≤ b.mend)
    (htW : t.id < W64)
    (hfit : (t.id - b.headId) * DS + t.off < W64) :
    (Buffer.flush DS b).contents =
        b.contents.drop ((t.id - b.headId) * DS + t.off - b.mbegin) ∧
    ((t.id - b.headId) * DS + t.off - b.mbegin = 0 → Buffer.flush DS b = b) ∧
    (0 < t.off ∨ t.id = b.headId → (Buffer.flush DS b).beginIter = t) := by
  have hDS : 0 < DS := hwf.1
  have hdl : ∀ blk ∈ b.blocks, blk.data.length = DS := hwf.2.2.2.2.1
  have hmap := hwf.2.2.2.1
  have hmeWF : b.mend < DS := hwf.2.2.2.2.2.2.1
  have hhead := wf_headId DS b hwf
  have hsub : iterSub DS t b.beginIter =
      (t.id - b.headId) * DS + t.off - b.mbegin := by
    have h := iterSub_eq DS b.beginIter t hDS
      (by simp only [Buffer.beginIter]; exact hmb) ht3
      (by simp only [Buffer.beginIter]; exact ht1)
      (by simp only [Buffer.beginIter]; exact fun h => ht4 h.symm) htW
      (by simp only [Buffer.beginIter]; exact hfit)
    simpa [Buffer.beginIter] using h
  have hflush : Buffer.flush DS b =
      if 0 < (t.id - b.headId) * DS + t.off - b.mbegin
      then Buffer.dropFront DS b ((t.id - b.headId) * DS + t.off - b.mbegin)
      else b := by
    cases hit : b.iters with
    | nil =>
      have ht' : b.endIter = t := by simpa [hit] using ht
      simp only [Buffer.flush, hit]
      rw [ht', hsub]
    | cons i rest =>
      have ht' : i = t := by simpa [hit] using ht
      simp only [Buffer.flush, hit]
      rw [ht', hsub]
  by_cases hd : 0 < (t.id - b.headId) * DS + t.off - b.mbegin
  · have hd' : b.mbegin ≤ (t.id - b.headId) * DS + t.off := by omega
    have hbound : b.mbegin + ((t.id - b.headId) * DS + t.off - b.mbegin) ≤
        DS * (b.blocks.length - 1) + b.mend := by
      have hmain : (t.id - b.headId) * DS + t.off ≤
          DS * (b.blocks.length - 1) + b.mend := by
        rcases Nat.lt_or_ge (t.id - b.headId) (b.blocks.length - 1) with hlt | hge
        · have h1 : ((t.id - b.headId) + 1) * DS ≤ (b.blocks.length - 1) * DS :=
            Nat.mul_le_mul_right DS hlt
          have h2 : ((t.id - b.headId) + 1) * DS = (t.id - b.headId) * DS + DS :=
            Nat.succ_mul _ _
          have h3 : (b.blocks.length - 1) * DS = DS * (b.blocks.length - 1) :=
            Nat.mul_comm _ _
          omega
        · have hkeq : t.id - b.headId = b.blocks.length - 1 := by omega
          have h4 := ht5 hkeq
          have h5 : (t.id - b.headId) * DS = DS * (b.blocks.length - 1) := by
            rw [hkeq, Nat.mul_comm]
          omega
      omega
    have hcontents := dropFrontLoop_contents DS b.blocks b.mbegin b.mend
      ((t.id - b.headId) * DS + t.off - b.mbegin) hdl hwf.2.2.2.2.2.1
      (le_of_lt hmeWF) hbound
    rw [hflush, if_pos hd]
    refine ⟨?_, fun h0 => absurd h0 (by omega), ?_⟩
    · simp only [Buffer.dropFront, Buffer.contents]
      exact hcontents
    · intro hcond
      have hland := dropFrontLoop_land DS b.blocks b.headId b.mbegin t.id t.off
        ht1 ht2 ht3 hwf.2.2.2.2.2.1 ht4 hcond
      have hh := headId_drop b.blocks (b.blockId - b.blocks.length)
        b.blocks.length (t.id - b.headId) hmap ht2
      generalize hK : t.id - b.headId = K at hland hh ⊢
      rw [show Buffer.dropFront DS b (K * DS + t.off - b.mbegin) =
          { b with blocks := b.blocks.drop K, mbegin := t.off } from by
        simp only [Buffer.dropFront, hland]]
      simp only [Buffer.beginIter, Buffer.headId]
      rw [hh, show b.blockId - b.blocks.length + K = t.id from by omega]
  · rw [hflush, if_neg hd]
    have hd0 : (t.id - b.headId) * DS + t.off - b.mbegin = 0 := by omega
    refine ⟨by rw [hd0, List.drop_zero], fun _ => rfl, ?_⟩
    intro _
    have hidh : t.id = b.headId := by
      by_contra hne'
      have h1 : (1 : Nat) * DS ≤ (t.id - b.headId) * DS :=
        Nat.mul_le_mul_right DS (by omega)
      simp only [Nat.one_mul] at h1
      omega
    have hoff : t.off = b.mbegin := by
      have h5 := ht4 hidh
      rw [hidh, Nat.sub_self, Nat.zero_mul, Nat.zero_add] at hd0
      omega
    show (⟨b.headId, b.mbegin⟩ : Iter) = t
    rw [← hidh, ← hoff]

/-- The buffer for the C7 amended witness: bytes [2..6] across two 4-byte
blocks, first registered iterator at block 0, offset 2. -/
def c7WBuf : Buffer := ⟨[⟨0, [1, 2, 3, 4]⟩, ⟨1, [5, 6, 7, 8]⟩], 2, 1, 2, [⟨0, 2⟩]⟩

/-- C7 amended witness: at DATA_SIZE 4 on `c7WBuf` with first iterator
⟨0, 2⟩ (logical distance 1), flush drops exactly one byte and begin()
afterwards equals the iterator. -/
theorem c7_amended_witness :
    WF 4 c7WBuf ∧ c7WBuf.contents = [2, 3, 4, 5, 6] ∧
    (Buffer.flush 4 c7WBuf).contents = [3, 4, 5, 6] ∧
    (Buffer.flush 4 c7WBuf).beginIter = ⟨0, 2⟩ := by
  have h := c7_flush_amended 4 c7WBuf ⟨0, 2⟩ (by decide) (by decide) rfl
    (by decide) (by decide) (by decide) (by decide) (by decide)
    (by decide) (by decide)
  refine ⟨by decide, by decide, ?_, h.2.2 (Or.inl (by decide))⟩
  have h1 := h.1
  rw [show (Iter.id ⟨0, 2⟩ - c7WBuf.headId) * 4 + Iter.off ⟨0, 2⟩ -
    c7WBuf.mbegin = 1 from by decide] at h1
  rw [h1]
  decide

end TntBuffer
